import Mathlib

/-!
# Free-fly camera (`src/Camera.h`): embedding and verified properties

The camera of `src/Camera.h` is embedded as pure functions on an explicit state record.
Floating-point numbers (`float`, `double`) are read as elements of a linearly ordered field
`α`; every theorem below is stated at `α = ℝ`, i.e. in exact real arithmetic, with `cos`,
`sin`, `sqrt` and `π` the real ones.  Rounding, NaN and infinities are outside the model.

Conventions of the model that differ from IEEE arithmetic:
* division by zero yields `0` (so `normalize` of the zero vector is the zero vector, where
  the machine computes NaN components); no theorem below relies on the value of such a
  quotient except to say that it is *not* a unit vector, which holds on the machine too;
* with the scalar library `realMath`, `glm::radians` multiplies by the exact `π / 180`, so
  `cos` of 90 degrees is `0`.  The code multiplies by a floating-point constant instead and
  computes a cosine of about `6e-17` there.  For every claim but one this is a difference of
  rounding only; the claim about the basis at a pitch of exactly ±90 degrees is decided by
  it, and is settled with the scalar library `glmMath`, which has GLM's constant.
-/

namespace Renderer

/-! ## Scalar math library -/

/-- Modelled from the spec: the scalar functions `cos`, `sin`, `sqrt` of the C math library
and the constant `π` behind `glm::radians` are library code, not under `src/`; they are taken
as parameters of the embedding.  The spec calls them by these names in its orientation-update
algorithm ("angles in degrees converted to radians", `cos`, `sin`, `normalize`). -/
class FloatMath (α : Type) where
  cos : α → α
  sin : α → α
  sqrt : α → α
  pi : α

/-- Instance of the scalar library in exact real arithmetic. -/
noncomputable instance realMath : FloatMath ℝ where
  cos := Real.cos
  sin := Real.sin
  sqrt := Real.sqrt
  pi := Real.pi

/-! ## The part of GLM the camera uses -/

/-- Embedding of `glm::vec3`. -/
@[ext]
structure Vec3 (α : Type) where
  x : α
  y : α
  z : α

/-- Embedding of `glm::vec4`. -/
@[ext]
structure Vec4 (α : Type) where
  x : α
  y : α
  z : α
  w : α

/-- Embedding of `glm::mat4`: four columns, as GLM stores it (`m[col][row]`). -/
@[ext]
structure Mat4 (α : Type) where
  c0 : Vec4 α
  c1 : Vec4 α
  c2 : Vec4 α
  c3 : Vec4 α

section Glm

variable {α : Type} [LinearOrderedField α] [FloatMath α]

/-- Component-wise `operator+` of `glm::vec3`. -/
def Vec3.add (a b : Vec3 α) : Vec3 α := ⟨a.x + b.x, a.y + b.y, a.z + b.z⟩

/-- Component-wise `operator-` of `glm::vec3`. -/
def Vec3.sub (a b : Vec3 α) : Vec3 α := ⟨a.x - b.x, a.y - b.y, a.z - b.z⟩

/-- Vector times scalar, `operator*` of `glm::vec3`. -/
def Vec3.scale (a : Vec3 α) (s : α) : Vec3 α := ⟨a.x * s, a.y * s, a.z * s⟩

/-- Modelled from the spec: `glm::dot` is library code, not under `src/`; the usual inner
product. -/
def dot (a b : Vec3 α) : α := a.x * b.x + a.y * b.y + a.z * b.z

/-- Modelled from the spec: `glm::cross` is library code, not under `src/`; the spec's
`cross`, with GLM's component order. -/
def cross (a b : Vec3 α) : Vec3 α :=
  ⟨a.y * b.z - b.y * a.z, a.z * b.x - b.z * a.x, a.x * b.y - b.x * a.y⟩

/-- Modelled from the spec: `glm::inversesqrt` is library code, not under `src/`;
`1 / sqrt x`. -/
def inversesqrt (x : α) : α := 1 / FloatMath.sqrt x

/-- Modelled from the spec: `glm::normalize` is library code, not under `src/`; the spec's
`normalize`, computed by GLM as `v * inversesqrt(dot(v, v))`. -/
def normalize (v : Vec3 α) : Vec3 α := v.scale (inversesqrt (dot v v))

/-- Modelled from the spec: `glm::length` is library code, not under `src/`; the Euclidean
length `sqrt(dot(v, v))`, the spec's `|v|`. -/
def length (v : Vec3 α) : α := FloatMath.sqrt (dot v v)

/-- Modelled from the spec: `glm::radians` is library code, not under `src/`; the spec's
"angles in degrees converted to radians". -/
def radians (degrees : α) : α := degrees * (FloatMath.pi / 180)

/-- Modelled from the spec: `glm::lookAt` is library code, not under `src/`; the spec's
"right-handed look-at transform" / "standard look-at matrix", as GLM's `lookAtRH` builds it:
`f = normalize(center - eye)`, `s = normalize(cross(f, up))`, `u = cross(s, f)`, rotation rows
`s`, `u`, `-f` and translation column `(-s·eye, -u·eye, f·eye)`. -/
def lookAt (eye center up : Vec3 α) : Mat4 α :=
  let f := normalize (center.sub eye)
  let s := normalize (cross f up)
  let u := cross s f
  { c0 := ⟨s.x, u.x, -f.x, 0⟩
    c1 := ⟨s.y, u.y, -f.y, 0⟩
    c2 := ⟨s.z, u.z, -f.z, 0⟩
    c3 := ⟨-dot s eye, -dot u eye, dot f eye, 1⟩ }

end Glm

/-! ## The camera -/

/-- The enum `Camera_Movement`. -/
inductive Camera_Movement where
  | FORWARD
  | BACKWARD
  | LEFT
  | RIGHT
  deriving DecidableEq

/-- The class `Camera`: its data members, in declaration order. -/
@[ext]
structure Camera (α : Type) where
  Zoom : α
  Position : Vec3 α
  Front : Vec3 α
  Up : Vec3 α
  Right : Vec3 α
  WorldUp : Vec3 α
  Yaw : α
  Pitch : α
  movementSpeed : α
  mouseSensitivity : α

section CameraOps

variable {α : Type} [LinearOrderedField α] [FloatMath α]

/-- Default yaw, `YAW {-90.0F}`. -/
def YAW : α := -90
/-- Default pitch, `PITCH {0.0F}`. -/
def PITCH : α := 0
/-- Default speed, `SPEED {2.5F}`. -/
def SPEED : α := 5 / 2
/-- Default sensitivity, `SENSITIVITY {0.1F}`: the `float` nearest to `0.1`, which is
`13421773 / 2^27`. -/
def SENSITIVITY : α := 13421773 / 134217728
/-- Default zoom, `ZOOM {45.0F}`. -/
def ZOOM : α := 45

/-- Embedding of `Camera::updateCameraVectors`. -/
def Camera.updateCameraVectors (c : Camera α) : Camera α :=
  let front : Vec3 α :=
    ⟨FloatMath.cos (radians c.Yaw) * FloatMath.cos (radians c.Pitch),
     FloatMath.sin (radians c.Pitch),
     FloatMath.sin (radians c.Yaw) * FloatMath.cos (radians c.Pitch)⟩
  let c1 := { c with Front := normalize front }
  let c2 := { c1 with Right := normalize (cross c1.Front c1.WorldUp) }
  { c2 with Up := normalize (cross c2.Right c2.Front) }

/-- Embedding of the constructor `Camera(glm::vec3 position, glm::vec3 up, float yaw,
float pitch)`.  `mem` is the content of the object's storage before the constructor runs
(all zero for an object of static storage duration).  The member initialiser list writes
`Front`, `movementSpeed`, `mouseSensitivity`, `Zoom`, `Position`, `WorldUp` and `Pitch`;
it has no entry for `Yaw`, so the parameter `yaw` is not used and `Yaw` keeps what the
storage held. -/
def Camera.CameraVec (mem : Camera α) (position up : Vec3 α) (_yaw pitch : α) : Camera α :=
  Camera.updateCameraVectors
    { mem with
      Front := ⟨0, 0, -1⟩
      movementSpeed := SPEED
      mouseSensitivity := SENSITIVITY
      Zoom := ZOOM
      Position := position
      WorldUp := up
      Pitch := pitch }

/-- The call `Camera()`: the vec3 constructor with all its default arguments. -/
def Camera.CameraDefault (mem : Camera α) : Camera α :=
  Camera.CameraVec mem ⟨0, 0, 0⟩ ⟨0, 1, 0⟩ YAW PITCH

/-- Embedding of the constructor `Camera(float posX, float posY, float posZ, float upX,
float upY, float upZ, float yaw, float pitch)`. -/
def Camera.CameraScalars (mem : Camera α) (posX posY posZ upX upY upZ yaw pitch : α) :
    Camera α :=
  let c0 := { mem with
              Front := ⟨0, 0, -1⟩
              movementSpeed := SPEED
              mouseSensitivity := SENSITIVITY
              Zoom := ZOOM }
  let c1 := { c0 with Position := ⟨posX, posY, posZ⟩ }
  let c2 := { c1 with WorldUp := ⟨upX, upY, upZ⟩ }
  let c3 := { c2 with Yaw := yaw }
  let c4 := { c3 with Pitch := pitch }
  Camera.updateCameraVectors c4

/-- Embedding of `Camera::getViewMatrix`. -/
def Camera.getViewMatrix (c : Camera α) : Mat4 α :=
  lookAt c.Position (c.Position.add c.Front) c.Up

/-- Embedding of `Camera::processKeyboard`: four independent `if` statements. -/
def Camera.processKeyboard (c : Camera α) (direction : Camera_Movement) (deltaTime : α) :
    Camera α :=
  let velocity := c.movementSpeed * deltaTime
  let c1 := if direction = Camera_Movement.FORWARD then
      { c with Position := c.Position.add (c.Front.scale velocity) } else c
  let c2 := if direction = Camera_Movement.BACKWARD then
      { c1 with Position := c1.Position.sub (c1.Front.scale velocity) } else c1
  let c3 := if direction = Camera_Movement.LEFT then
      { c2 with Position := c2.Position.sub (c2.Right.scale velocity) } else c2
  if direction = Camera_Movement.RIGHT then
      { c3 with Position := c3.Position.add (c3.Right.scale velocity) } else c3

/-- Embedding of `Camera::processMouseMovement`.  `constrainPitch` is the value of the
`GLboolean` (an unsigned char) argument, tested with `!= 0U`; its default is `1`. -/
def Camera.processMouseMovement (c : Camera α) (xoffset yoffset : α) (constrainPitch : Nat) :
    Camera α :=
  let xoffset := xoffset * c.mouseSensitivity
  let yoffset := yoffset * c.mouseSensitivity
  let c1 := { c with Yaw := c.Yaw + xoffset }
  let c2 := { c1 with Pitch := c1.Pitch + yoffset }
  let c3 :=
    if constrainPitch ≠ 0 then
      let d1 := if c2.Pitch > 89 then { c2 with Pitch := 89 } else c2
      if d1.Pitch < -89 then { d1 with Pitch := -89 } else d1
    else c2
  Camera.updateCameraVectors c3

/-- Embedding of `Camera::processMouseScroll`. -/
def Camera.processMouseScroll (c : Camera α) (yoffset : α) : Camera α :=
  let c1 := { c with Zoom := c.Zoom - yoffset }
  let c2 := if c1.Zoom < 1 then { c1 with Zoom := 1 } else c1
  if c2.Zoom > 45 then { c2 with Zoom := 45 } else c2

/-- One call of a public mutator of the camera. -/
inductive Op (α : Type) where
  | keyboard (direction : Camera_Movement) (deltaTime : α)
  | mouse (xoffset yoffset : α) (constrainPitch : Nat)
  | scroll (yoffset : α)

/-- Effect of one call on the camera state. -/
def Camera.step (c : Camera α) : Op α → Camera α
  | Op.keyboard d dt => c.processKeyboard d dt
  | Op.mouse x y k => c.processMouseMovement x y k
  | Op.scroll y => c.processMouseScroll y

/-- Effect of a finite sequence of calls, first call first. -/
def Camera.run (c : Camera α) (ops : List (Op α)) : Camera α :=
  ops.foldl Camera.step c

/-- Whether every `processMouseMovement` call of a sequence has `constrainPitch` enabled. -/
def Op.constrained : Op α → Bool
  | Op.mouse _ _ k => k != 0
  | _ => true

/-- The `n`-fold repetition of `processMouseScroll(yoffset)`. -/
def Camera.scrollTimes (c : Camera α) (yoffset : α) : Nat → Camera α
  | 0 => c
  | n + 1 => (Camera.scrollTimes c yoffset n).processMouseScroll yoffset

end CameraOps

/-! ## Specification-side vocabulary -/

/-- The direction `(cos yaw · cos pitch, sin pitch, sin yaw · cos pitch)` of a yaw and a pitch
given in degrees, in exact real arithmetic. -/
noncomputable def eulerDirection (yaw pitch : ℝ) : Vec3 ℝ :=
  ⟨Real.cos (yaw * (Real.pi / 180)) * Real.cos (pitch * (Real.pi / 180)),
   Real.sin (pitch * (Real.pi / 180)),
   Real.sin (yaw * (Real.pi / 180)) * Real.cos (pitch * (Real.pi / 180))⟩

/-- The usual `clamp(x, lo, hi) = min(max(x, lo), hi)`. -/
def clamp {α : Type} [LinearOrderedField α] (x lo hi : α) : α := min (max x lo) hi

/-- Object storage holding zero in every member, as for an object of static storage duration
before its constructor runs. -/
def zeroMem {α : Type} [LinearOrderedField α] : Camera α :=
  { Zoom := 0
    Position := ⟨0, 0, 0⟩
    Front := ⟨0, 0, 0⟩
    Up := ⟨0, 0, 0⟩
    Right := ⟨0, 0, 0⟩
    WorldUp := ⟨0, 0, 0⟩
    Yaw := 0
    Pitch := 0
    movementSpeed := 0
    mouseSensitivity := 0 }

/-- A camera looking down `-Z` from `(0,0,3)` with speed `5/2`, sensitivity `1/10` and zoom
45, used as a concrete test state. -/
def sampleCamera {α : Type} [LinearOrderedField α] : Camera α :=
  { Zoom := 45
    Position := ⟨0, 0, 3⟩
    Front := ⟨0, 0, -1⟩
    Up := ⟨0, 1, 0⟩
    Right := ⟨1, 0, 0⟩
    WorldUp := ⟨0, 1, 0⟩
    Yaw := -90
    Pitch := 0
    movementSpeed := 5 / 2
    mouseSensitivity := 1 / 10 }

/-- The cached basis is the one derived from the current angles and reference vector:
`Front` is the Euler direction of `Yaw`, `Pitch`, `Right = normalize(Front × WorldUp)`,
`Up = normalize(Right × Front)`. -/
def BasisDerived (c : Camera ℝ) : Prop :=
  c.Front = eulerDirection c.Yaw c.Pitch ∧
  c.Right = normalize (cross c.Front c.WorldUp) ∧
  c.Up = normalize (cross c.Right c.Front)

/-- `Front`, `Right`, `Up` have length one and are pairwise orthogonal. -/
def Orthonormal (c : Camera ℝ) : Prop :=
  length c.Front = 1 ∧ length c.Right = 1 ∧ length c.Up = 1 ∧
  dot c.Front c.Right = 0 ∧ dot c.Front c.Up = 0 ∧ dot c.Right c.Up = 0

/-- The pitch lies in `[-89, 89]`. -/
def PitchInRange (c : Camera ℝ) : Prop := -89 ≤ c.Pitch ∧ c.Pitch ≤ 89

/-- Embedding of the call `getViewMatrix()` as a state transformer: the matrix returned and the
object state after the call.  The member function is not `const`-qualified, but its body is
the single `return` statement and assigns no member. -/
def Camera.getViewMatrixCall {α : Type} [LinearOrderedField α] [FloatMath α] (c : Camera α) :
    Mat4 α × Camera α :=
  (lookAt c.Position (c.Position.add c.Front) c.Up, c)

/-- Component-wise `operator+` of `glm::vec4`. -/
def Vec4.add {α : Type} [LinearOrderedField α] (a b : Vec4 α) : Vec4 α :=
  ⟨a.x + b.x, a.y + b.y, a.z + b.z, a.w + b.w⟩

/-- Vector times scalar, `operator*` of `glm::vec4`. -/
def Vec4.scale {α : Type} [LinearOrderedField α] (a : Vec4 α) (s : α) : Vec4 α :=
  ⟨a.x * s, a.y * s, a.z * s, a.w * s⟩

/-- Modelled from the spec: the matrix-vector product `glm::mat4 * glm::vec4` is library code,
not under `src/`; the spec's "matrix mapping world-space coordinates into camera-local (eye)
space" is applied to a point this way: the columns weighted by the components of the vector. -/
def Mat4.mulVec {α : Type} [LinearOrderedField α] (m : Mat4 α) (v : Vec4 α) : Vec4 α :=
  (((m.c0.scale v.x).add (m.c1.scale v.y)).add (m.c2.scale v.z)).add (m.c3.scale v.w)

/-- The homogeneous point `(p, 1)` of a point `p`. -/
def Vec3.toPoint {α : Type} [LinearOrderedField α] (p : Vec3 α) : Vec4 α := ⟨p.x, p.y, p.z, 1⟩

/-- The displacement of `Position` caused by one `processKeyboard` call. -/
def Camera.displacement {α : Type} [LinearOrderedField α] [FloatMath α] (c : Camera α)
    (direction : Camera_Movement) (deltaTime : α) : Vec3 α :=
  (c.processKeyboard direction deltaTime).Position.sub c.Position

/-! ## The scalar library with GLM's conversion constant -/

/-- The factor `glm::radians` multiplies a `double` by: the `double` nearest to its literal
`0.01745329251994329576923690768489`, which is `5030569068109113 / 2^58`, a rational number
slightly below `π / 180`. -/
def glmRadiansFactor {α : Type} [LinearOrderedField α] : α :=
  5030569068109113 / 288230376151711744

/-- Modelled from the spec: the scalar library of `realMath` (`cos`, `sin`, `sqrt` are library
code, not under `src/`) with the degrees-to-radians conversion GLM performs: `pi` is set so
that `radians d = d * glmRadiansFactor`.  Products and function values are not rounded. -/
noncomputable def glmMath : FloatMath ℝ where
  cos := Real.cos
  sin := Real.sin
  sqrt := Real.sqrt
  pi := 180 * glmRadiansFactor

/-- `Camera::updateCameraVectors` evaluated with the scalar library `glmMath`. -/
noncomputable def Camera.updateCameraVectorsGlm (c : Camera ℝ) : Camera ℝ :=
  @Camera.updateCameraVectors ℝ _ glmMath c

/-- `Camera::processMouseMovement` evaluated with the scalar library `glmMath`. -/
noncomputable def Camera.processMouseMovementGlm (c : Camera ℝ) (xoffset yoffset : ℝ)
    (constrainPitch : Nat) : Camera ℝ :=
  @Camera.processMouseMovement ℝ _ glmMath c xoffset yoffset constrainPitch

/-- The eight-scalar constructor evaluated with the scalar library `glmMath`. -/
noncomputable def Camera.CameraScalarsGlm (mem : Camera ℝ)
    (posX posY posZ upX upY upZ yaw pitch : ℝ) : Camera ℝ :=
  @Camera.CameraScalars ℝ _ glmMath mem posX posY posZ upX upY upZ yaw pitch

/-- The direction `(cos a · cos b, sin b, sin a · cos b)` of a yaw `a` and a pitch `b` given
in radians. -/
noncomputable def direction (a b : ℝ) : Vec3 ℝ :=
  ⟨Real.cos a * Real.cos b, Real.sin b, Real.sin a * Real.cos b⟩

/-! ## Auxiliary lemmas -/

@[simp] theorem cos_real (x : ℝ) : (FloatMath.cos x : ℝ) = Real.cos x := rfl
@[simp] theorem sin_real (x : ℝ) : (FloatMath.sin x : ℝ) = Real.sin x := rfl
@[simp] theorem sqrt_real (x : ℝ) : (FloatMath.sqrt x : ℝ) = Real.sqrt x := rfl
@[simp] theorem pi_real : (FloatMath.pi : ℝ) = Real.pi := rfl

/-- The Euler direction has squared length one. -/
theorem dot_eulerDirection (yaw pitch : ℝ) :
    dot (eulerDirection yaw pitch) (eulerDirection yaw pitch) = 1 := by
  have h1 := Real.cos_sq_add_sin_sq (yaw * (Real.pi / 180))
  have h2 := Real.cos_sq_add_sin_sq (pitch * (Real.pi / 180))
  simp only [dot, eulerDirection]
  linear_combination (Real.cos (pitch * (Real.pi / 180))) ^ 2 * h1 + h2

/-- Normalising a vector of squared length one returns it unchanged. -/
theorem normalize_of_dot_eq_one (v : Vec3 ℝ) (h : dot v v = 1) : normalize v = v := by
  simp [normalize, inversesqrt, h, Vec3.scale]

/-- A normalised non-zero vector has squared length one. -/
theorem dot_normalize (v : Vec3 ℝ) (h : dot v v ≠ 0) :
    dot (normalize v) (normalize v) = 1 := by
  have hnn : 0 ≤ dot v v := by
    simp only [dot]; nlinarith [mul_self_nonneg v.x, mul_self_nonneg v.y, mul_self_nonneg v.z]
  have hpos : 0 < dot v v := lt_of_le_of_ne hnn (Ne.symm h)
  have hs : Real.sqrt (dot v v) ≠ 0 := (Real.sqrt_pos.mpr hpos).ne'
  have hsq : Real.sqrt (dot v v) * Real.sqrt (dot v v) = dot v v := Real.mul_self_sqrt hnn
  generalize hS : Real.sqrt (dot v v) = s at hs hsq
  simp only [normalize, inversesqrt, Vec3.scale, sqrt_real, hS]
  simp only [dot] at hsq ⊢
  field_simp
  linear_combination -hsq

/-- The front vector after `updateCameraVectors` is the Euler direction of yaw and pitch. -/
theorem updateCameraVectors_Front (c : Camera ℝ) :
    c.updateCameraVectors.Front = eulerDirection c.Yaw c.Pitch := by
  have h := normalize_of_dot_eq_one _ (dot_eulerDirection c.Yaw c.Pitch)
  simpa [Camera.updateCameraVectors, radians, eulerDirection] using h

/-- A vector of squared length one has length one. -/
theorem length_of_dot_eq_one (v : Vec3 ℝ) (h : dot v v = 1) : length v = 1 := by
  simp [length, h]

theorem dot_self_nonneg (v : Vec3 ℝ) : 0 ≤ dot v v := by
  simp only [dot]; nlinarith [mul_self_nonneg v.x, mul_self_nonneg v.y, mul_self_nonneg v.z]

/-- Only the zero vector has squared length zero. -/
theorem dot_self_eq_zero_iff (v : Vec3 ℝ) : dot v v = 0 ↔ v = ⟨0, 0, 0⟩ := by
  constructor
  · intro h
    simp only [dot] at h
    have hx : v.x = 0 := by nlinarith [mul_self_nonneg v.x, mul_self_nonneg v.y, mul_self_nonneg v.z]
    have hy : v.y = 0 := by nlinarith [mul_self_nonneg v.x, mul_self_nonneg v.y, mul_self_nonneg v.z]
    have hz : v.z = 0 := by nlinarith [mul_self_nonneg v.x, mul_self_nonneg v.y, mul_self_nonneg v.z]
    exact Vec3.ext hx hy hz
  · intro h
    simp [h, dot]

theorem dot_comm (a b : Vec3 ℝ) : dot a b = dot b a := by
  simp only [dot]; ring

theorem dot_normalize_left (v w : Vec3 ℝ) :
    dot (normalize v) w = dot v w * inversesqrt (dot v v) := by
  simp only [normalize, Vec3.scale, dot]; ring

theorem dot_cross_left (a b : Vec3 ℝ) : dot (cross a b) a = 0 := by
  simp only [dot, cross]; ring

theorem dot_cross_right (a b : Vec3 ℝ) : dot (cross a b) b = 0 := by
  simp only [dot, cross]; ring

/-- Lagrange identity: `|a × b|² = |a|²|b|² - (a·b)²`. -/
theorem dot_cross_cross (a b : Vec3 ℝ) :
    dot (cross a b) (cross a b) = dot a a * dot b b - dot a b ^ 2 := by
  simp only [dot, cross]; ring

/-- The derivation of `Right` and `Up` from a unit `Front` and a reference vector that is not
parallel to it yields an orthonormal right-handed frame. -/
theorem frame_of_nondegenerate (F W : Vec3 ℝ) (hF : dot F F = 1)
    (hne : cross F W ≠ ⟨0, 0, 0⟩) :
    dot (normalize (cross F W)) (normalize (cross F W)) = 1 ∧
    normalize (cross (normalize (cross F W)) F) = cross (normalize (cross F W)) F ∧
    dot (cross (normalize (cross F W)) F) (cross (normalize (cross F W)) F) = 1 ∧
    dot F (normalize (cross F W)) = 0 ∧
    dot F (cross (normalize (cross F W)) F) = 0 ∧
    dot (normalize (cross F W)) (cross (normalize (cross F W)) F) = 0 := by
  have hd : dot (cross F W) (cross F W) ≠ 0 := fun h => hne ((dot_self_eq_zero_iff _).mp h)
  have hR : dot (normalize (cross F W)) (normalize (cross F W)) = 1 := dot_normalize _ hd
  have hRF : dot (normalize (cross F W)) F = 0 := by
    rw [dot_normalize_left, dot_cross_left, zero_mul]
  have hU : dot (cross (normalize (cross F W)) F) (cross (normalize (cross F W)) F) = 1 := by
    rw [dot_cross_cross, hR, hF, hRF]; norm_num
  refine ⟨hR, normalize_of_dot_eq_one _ hU, hU, ?_, ?_, ?_⟩
  · rw [dot_comm]; exact hRF
  · rw [dot_comm]; exact dot_cross_right _ _
  · rw [dot_comm]; exact dot_cross_left _ _

/-- The state after `updateCameraVectors`, field by field. -/
theorem updateCameraVectors_eq (c : Camera ℝ) :
    c.updateCameraVectors =
      { c with
        Front := eulerDirection c.Yaw c.Pitch
        Right := normalize (cross (eulerDirection c.Yaw c.Pitch) c.WorldUp)
        Up := normalize (cross (normalize (cross (eulerDirection c.Yaw c.Pitch) c.WorldUp))
                (eulerDirection c.Yaw c.Pitch)) } := by
  have h := normalize_of_dot_eq_one _ (dot_eulerDirection c.Yaw c.Pitch)
  simp only [eulerDirection] at h
  simp [Camera.updateCameraVectors, radians, eulerDirection, h]

/-- With the reference vector `(0,1,0)`, the cross product `Front × WorldUp` vanishes exactly
when the cosine of the pitch does. -/
theorem cross_eulerDirection_up_eq_zero_iff (yaw pitch : ℝ) :
    cross (eulerDirection yaw pitch) ⟨0, 1, 0⟩ = ⟨0, 0, 0⟩ ↔
      Real.cos (pitch * (Real.pi / 180)) = 0 := by
  have h1 := Real.cos_sq_add_sin_sq (yaw * (Real.pi / 180))
  constructor
  · intro h
    have hx := congrArg Vec3.x h
    have hz := congrArg Vec3.z h
    simp only [cross, eulerDirection] at hx hz
    have hsq : Real.cos (pitch * (Real.pi / 180)) ^ 2 = 0 := by
      linear_combination -(Real.cos (pitch * (Real.pi / 180))) ^ 2 * h1
        - (Real.sin (yaw * (Real.pi / 180)) * Real.cos (pitch * (Real.pi / 180))) * hx
        + (Real.cos (yaw * (Real.pi / 180)) * Real.cos (pitch * (Real.pi / 180))) * hz
    exact pow_eq_zero_iff (two_ne_zero) |>.mp hsq
  · intro h
    simp [cross, eulerDirection, h]

/-- A pitch between -89 and 89 degrees has a positive cosine. -/
theorem cos_pitch_pos (pitch : ℝ) (hlo : -89 ≤ pitch) (hhi : pitch ≤ 89) :
    0 < Real.cos (pitch * (Real.pi / 180)) := by
  have hpi := Real.pi_pos
  apply Real.cos_pos_of_mem_Ioo
  constructor
  · nlinarith
  · nlinarith

/-! ### Fields left alone by each operation -/

section Frame

variable {α : Type} [LinearOrderedField α] [FloatMath α]

@[simp] theorem updateCameraVectors_Pitch (c : Camera α) :
    c.updateCameraVectors.Pitch = c.Pitch := rfl
@[simp] theorem updateCameraVectors_Yaw (c : Camera α) :
    c.updateCameraVectors.Yaw = c.Yaw := rfl
@[simp] theorem updateCameraVectors_WorldUp (c : Camera α) :
    c.updateCameraVectors.WorldUp = c.WorldUp := rfl
@[simp] theorem updateCameraVectors_Position (c : Camera α) :
    c.updateCameraVectors.Position = c.Position := rfl
@[simp] theorem updateCameraVectors_Zoom (c : Camera α) :
    c.updateCameraVectors.Zoom = c.Zoom := rfl

/-- The pitch after a look update with the constraint enabled. -/
theorem processMouseMovement_Pitch_constrained (c : Camera α) (x y : α) (k : Nat)
    (hk : k ≠ 0) :
    (c.processMouseMovement x y k).Pitch =
      if c.Pitch + y * c.mouseSensitivity > 89 then 89
      else if c.Pitch + y * c.mouseSensitivity < -89 then -89
      else c.Pitch + y * c.mouseSensitivity := by
  simp only [Camera.processMouseMovement, updateCameraVectors_Pitch, hk, ne_eq,
    not_false_eq_true, if_true]
  by_cases h1 : c.Pitch + y * c.mouseSensitivity > 89
  · have h2 : ¬ ((89 : α) < -89) := by norm_num
    simp [h1, h2]
  · simp only [h1, if_false]
    by_cases h2 : c.Pitch + y * c.mouseSensitivity < -89
    · simp [h2]
    · simp [h2]

end Frame

/-! ## Claims -/

/-- C1: basis orthonormality. For every yaw and every pitch in [-89, 89] degrees, with
`WorldUp = (0,1,0)`, the vectors produced by `updateCameraVectors` have length one and are
pairwise orthogonal (exactly, in real arithmetic). -/
theorem C1_basis_orthonormal (c : Camera ℝ) (hup : c.WorldUp = ⟨0, 1, 0⟩)
    (hlo : -89 ≤ c.Pitch) (hhi : c.Pitch ≤ 89) :
    length c.updateCameraVectors.Front = 1 ∧
    length c.updateCameraVectors.Right = 1 ∧
    length c.updateCameraVectors.Up = 1 ∧
    dot c.updateCameraVectors.Front c.updateCameraVectors.Right = 0 ∧
    dot c.updateCameraVectors.Front c.updateCameraVectors.Up = 0 ∧
    dot c.updateCameraVectors.Right c.updateCameraVectors.Up = 0 := by
  have hne : cross (eulerDirection c.Yaw c.Pitch) c.WorldUp ≠ ⟨0, 0, 0⟩ := by
    rw [hup]
    intro h
    exact (cos_pitch_pos c.Pitch hlo hhi).ne' ((cross_eulerDirection_up_eq_zero_iff _ _).mp h)
  obtain ⟨hR, hUeq, hU, hFR, hFU, hRU⟩ :=
    frame_of_nondegenerate _ _ (dot_eulerDirection c.Yaw c.Pitch) hne
  rw [updateCameraVectors_eq]
  simp only [hUeq]
  exact ⟨length_of_dot_eq_one _ (dot_eulerDirection _ _), length_of_dot_eq_one _ hR,
    length_of_dot_eq_one _ hU, hFR, hFU, hRU⟩

/-- C1 at a concrete state: yaw -90, pitch 0, `WorldUp = (0,1,0)`. -/
theorem C1_basis_orthonormal_witness :
    (sampleCamera : Camera ℝ).WorldUp = ⟨0, 1, 0⟩ ∧
    -89 ≤ (sampleCamera : Camera ℝ).Pitch ∧ (sampleCamera : Camera ℝ).Pitch ≤ 89 ∧
    length (sampleCamera : Camera ℝ).updateCameraVectors.Front = 1 ∧
    length (sampleCamera : Camera ℝ).updateCameraVectors.Right = 1 ∧
    length (sampleCamera : Camera ℝ).updateCameraVectors.Up = 1 ∧
    dot (sampleCamera : Camera ℝ).updateCameraVectors.Front
      (sampleCamera : Camera ℝ).updateCameraVectors.Right = 0 ∧
    dot (sampleCamera : Camera ℝ).updateCameraVectors.Front
      (sampleCamera : Camera ℝ).updateCameraVectors.Up = 0 ∧
    dot (sampleCamera : Camera ℝ).updateCameraVectors.Right
      (sampleCamera : Camera ℝ).updateCameraVectors.Up = 0 :=
  ⟨rfl, by norm_num [sampleCamera], by norm_num [sampleCamera],
    C1_basis_orthonormal sampleCamera rfl (by norm_num [sampleCamera])
      (by norm_num [sampleCamera])⟩

/-- C2: pitch clamp. After `processMouseMovement(xOffset, yOffset, constrainPitch)` with the
constraint enabled, the new pitch is `clamp(oldPitch + mouseSensitivity*yOffset, -89, 89)`;
it is exactly 89 when the sum exceeds 89 and exactly -89 when the sum is below -89. -/
theorem C2_pitch_clamp (c : Camera ℝ) (xOffset yOffset : ℝ) (constrainPitch : Nat)
    (hk : constrainPitch ≠ 0) :
    (c.processMouseMovement xOffset yOffset constrainPitch).Pitch =
      clamp (c.Pitch + c.mouseSensitivity * yOffset) (-89) 89 ∧
    (89 < c.Pitch + c.mouseSensitivity * yOffset →
      (c.processMouseMovement xOffset yOffset constrainPitch).Pitch = 89) ∧
    (c.Pitch + c.mouseSensitivity * yOffset < -89 →
      (c.processMouseMovement xOffset yOffset constrainPitch).Pitch = -89) := by
  rw [processMouseMovement_Pitch_constrained c xOffset yOffset constrainPitch hk,
    mul_comm yOffset c.mouseSensitivity]
  generalize c.Pitch + c.mouseSensitivity * yOffset = p
  refine ⟨?_, ?_, ?_⟩
  · unfold clamp
    split_ifs with h1 h2
    · rw [max_eq_left (by linarith), min_eq_right (by linarith)]
    · rw [max_eq_right (by linarith)]; norm_num
    · rw [max_eq_left (by linarith), min_eq_left (by linarith)]
  · intro h
    simp [h]
  · intro h
    have h1 : ¬ (p > 89) := by linarith
    simp [h, h1]

/-- C2 at a concrete input: pitch 0, sensitivity 1/10, `yOffset = 1000` overshoots to
pitch 100 and is truncated to 89. -/
theorem C2_pitch_clamp_witness :
    ((sampleCamera : Camera ℝ).processMouseMovement 0 1000 1).Pitch = 89 := by
  have h := (C2_pitch_clamp (sampleCamera : Camera ℝ) 0 1000 1 (by decide)).2.1
  exact h (by norm_num [sampleCamera])

/-- The zoom after a scroll update is the clamped difference. -/
theorem processMouseScroll_Zoom (c : Camera ℝ) (yOffset : ℝ) :
    (c.processMouseScroll yOffset).Zoom = clamp (c.Zoom - yOffset) 1 45 := by
  simp only [Camera.processMouseScroll, clamp]
  generalize c.Zoom - yOffset = z
  by_cases h1 : z < 1
  · have h2 : ¬ ((1 : ℝ) > 45) := by norm_num
    simp only [h1, if_true, h2, if_false]
    rw [max_eq_right h1.le]
    norm_num
  · simp only [h1, if_false]
    push_neg at h1
    by_cases h2 : z > 45
    · simp only [h2, if_true]
      rw [max_eq_left h1, min_eq_right h2.le]
    · simp only [h2, if_false]
      push_neg at h2
      rw [max_eq_left h1, min_eq_left h2]

/-- A value clamped into `[1, 45]` lies in `[1, 45]`. -/
theorem clamp_mem (z : ℝ) : 1 ≤ clamp z 1 45 ∧ clamp z 1 45 ≤ 45 := by
  unfold clamp
  exact ⟨le_min (le_max_right _ _) (by norm_num), min_le_right _ _⟩

/-- C3: zoom clamp. For every prior `Zoom` (inside or outside [1,45]) and every `yOffset`,
after `processMouseScroll(yOffset)` the new `Zoom` is `clamp(oldZoom - yOffset, 1, 45)`,
hence lies in [1,45]. -/
theorem C3_zoom_clamp (c : Camera ℝ) (yOffset : ℝ) :
    (c.processMouseScroll yOffset).Zoom = clamp (c.Zoom - yOffset) 1 45 ∧
    1 ≤ (c.processMouseScroll yOffset).Zoom ∧
    (c.processMouseScroll yOffset).Zoom ≤ 45 := by
  rw [processMouseScroll_Zoom]
  exact ⟨rfl, clamp_mem _⟩

/-- C4: movement. With `v = movementSpeed * deltaTime`, `processKeyboard` moves `Position`
by `+Front*v` (FORWARD), `-Front*v` (BACKWARD), `-Right*v` (LEFT), `+Right*v` (RIGHT); and
from `Position = (0,0,0)`, `Front = (0,0,-1)`, `movementSpeed = 2.5`, the call
`processKeyboard(FORWARD, 1.0)` yields `Position = (0,0,-2.5)`. -/
theorem C4_movement :
    (∀ (c : Camera ℝ) (deltaTime : ℝ),
      (c.processKeyboard Camera_Movement.FORWARD deltaTime).Position =
        c.Position.add (c.Front.scale (c.movementSpeed * deltaTime)) ∧
      (c.processKeyboard Camera_Movement.BACKWARD deltaTime).Position =
        c.Position.sub (c.Front.scale (c.movementSpeed * deltaTime)) ∧
      (c.processKeyboard Camera_Movement.LEFT deltaTime).Position =
        c.Position.sub (c.Right.scale (c.movementSpeed * deltaTime)) ∧
      (c.processKeyboard Camera_Movement.RIGHT deltaTime).Position =
        c.Position.add (c.Right.scale (c.movementSpeed * deltaTime))) ∧
    (∀ c : Camera ℝ,
      ({ c with Position := ⟨0, 0, 0⟩, Front := ⟨0, 0, -1⟩, movementSpeed := 5 / 2 }.processKeyboard
        Camera_Movement.FORWARD 1).Position = ⟨0, 0, -(5 / 2)⟩) := by
  refine ⟨fun c deltaTime => ⟨?_, ?_, ?_, ?_⟩, fun c => ?_⟩
  · simp [Camera.processKeyboard]
  · simp [Camera.processKeyboard]
  · simp [Camera.processKeyboard]
  · simp [Camera.processKeyboard]
  · simp [Camera.processKeyboard, Vec3.add, Vec3.scale]

/-- Double cross product with a unit vector: `F × (R × F) = R` when `|F| = 1` and
`F · R = 0`. -/
theorem cross_cross_of_orthonormal (F R : Vec3 ℝ) (hF : dot F F = 1) (hFR : dot F R = 0) :
    cross F (cross R F) = R := by
  simp only [dot] at hF hFR
  apply Vec3.ext
  · simp only [cross]
    linear_combination R.x * hF - F.x * hFR
  · simp only [cross]
    linear_combination R.y * hF - F.y * hFR
  · simp only [cross]
    linear_combination R.z * hF - F.z * hFR

/-- The look-at matrix of a camera whose `Front`, `Right` are orthonormal and whose `Up` is
`normalize(Right × Front)`. -/
theorem getViewMatrix_of_frame (c : Camera ℝ) (hF : dot c.Front c.Front = 1)
    (hR : dot c.Right c.Right = 1) (hFR : dot c.Front c.Right = 0)
    (hU : c.Up = normalize (cross c.Right c.Front)) :
    c.getViewMatrix =
      { c0 := ⟨c.Right.x, c.Up.x, -c.Front.x, 0⟩
        c1 := ⟨c.Right.y, c.Up.y, -c.Front.y, 0⟩
        c2 := ⟨c.Right.z, c.Up.z, -c.Front.z, 0⟩
        c3 := ⟨-dot c.Right c.Position, -dot c.Up c.Position, dot c.Front c.Position, 1⟩ } := by
  have hRF : dot c.Right c.Front = 0 := by rw [dot_comm]; exact hFR
  have hUU : dot (cross c.Right c.Front) (cross c.Right c.Front) = 1 := by
    rw [dot_cross_cross, hR, hF, hRF]; norm_num
  have hU2 : c.Up = cross c.Right c.Front := by rw [hU, normalize_of_dot_eq_one _ hUU]
  have hsub : (c.Position.add c.Front).sub c.Position = c.Front := by
    apply Vec3.ext <;> simp [Vec3.add, Vec3.sub]
  have hf : normalize ((c.Position.add c.Front).sub c.Position) = c.Front := by
    rw [hsub, normalize_of_dot_eq_one _ hF]
  have hs : normalize (cross c.Front c.Up) = c.Right := by
    rw [hU2, cross_cross_of_orthonormal _ _ hF hFR, normalize_of_dot_eq_one _ hR]
  simp only [Camera.getViewMatrix, lookAt, hf, hs]
  rw [← hU2]

/-- C5: view transform. `getViewMatrix` is the right-handed look-at matrix for
`eye = Position`, `target = Position + Front`, `up = Up`; when `Front`, `Right` are
orthonormal and `Up = normalize(Right × Front)` (as `updateCameraVectors` produces them) its
rotation rows are `Right`, `Up`, `-Front` and its translation column is
`(-Right·Position, -Up·Position, Front·Position)`; at `Position = (0,0,3)`,
`Front = (0,0,-1)`, `Up = (0,1,0)` it is the identity rotation with translation `(0,0,-3)`,
which is the look-at matrix for eye `(0,0,3)`, target `(0,0,2)`, up `(0,1,0)`. -/
theorem C5_view_transform :
    (∀ c : Camera ℝ,
      c.getViewMatrix = lookAt c.Position (c.Position.add c.Front) c.Up) ∧
    (∀ c : Camera ℝ, dot c.Front c.Front = 1 → dot c.Right c.Right = 1 →
      dot c.Front c.Right = 0 → c.Up = normalize (cross c.Right c.Front) →
      c.getViewMatrix =
        { c0 := ⟨c.Right.x, c.Up.x, -c.Front.x, 0⟩
          c1 := ⟨c.Right.y, c.Up.y, -c.Front.y, 0⟩
          c2 := ⟨c.Right.z, c.Up.z, -c.Front.z, 0⟩
          c3 := ⟨-dot c.Right c.Position, -dot c.Up c.Position,
                 dot c.Front c.Position, 1⟩ }) ∧
    (∀ c : Camera ℝ,
      cross (eulerDirection c.Yaw c.Pitch) c.WorldUp ≠ ⟨0, 0, 0⟩ →
      c.updateCameraVectors.getViewMatrix =
        { c0 := ⟨c.updateCameraVectors.Right.x, c.updateCameraVectors.Up.x,
                 -c.updateCameraVectors.Front.x, 0⟩
          c1 := ⟨c.updateCameraVectors.Right.y, c.updateCameraVectors.Up.y,
                 -c.updateCameraVectors.Front.y, 0⟩
          c2 := ⟨c.updateCameraVectors.Right.z, c.updateCameraVectors.Up.z,
                 -c.updateCameraVectors.Front.z, 0⟩
          c3 := ⟨-dot c.updateCameraVectors.Right c.Position,
                 -dot c.updateCameraVectors.Up c.Position,
                 dot c.updateCameraVectors.Front c.Position, 1⟩ }) ∧
    (∀ c : Camera ℝ,
      { c with Position := ⟨0, 0, 3⟩, Front := ⟨0, 0, -1⟩, Up := ⟨0, 1, 0⟩ }.getViewMatrix =
        { c0 := ⟨1, 0, 0, 0⟩, c1 := ⟨0, 1, 0, 0⟩, c2 := ⟨0, 0, 1, 0⟩, c3 := ⟨0, 0, -3, 1⟩ } ∧
      { c with Position := ⟨0, 0, 3⟩, Front := ⟨0, 0, -1⟩, Up := ⟨0, 1, 0⟩ }.getViewMatrix =
        lookAt ⟨0, 0, 3⟩ ⟨0, 0, 2⟩ ⟨0, 1, 0⟩) := by
  refine ⟨fun c => rfl, fun c hF hR hFR hU => getViewMatrix_of_frame c hF hR hFR hU,
    fun c hne => ?_, fun c => ⟨?_, ?_⟩⟩
  · obtain ⟨hR, hUeq, hU, hFR, hFU, hRU⟩ :=
      frame_of_nondegenerate _ _ (dot_eulerDirection c.Yaw c.Pitch) hne
    have h := getViewMatrix_of_frame c.updateCameraVectors
    rw [updateCameraVectors_eq] at h ⊢
    exact h (dot_eulerDirection _ _) hR hFR rfl
  · simp [Camera.getViewMatrix, lookAt, normalize, inversesqrt, cross, dot, Vec3.add,
      Vec3.sub, Vec3.scale]
  · simp [Camera.getViewMatrix, lookAt, Vec3.add]
    norm_num

/-- C5 at the concrete state `sampleCamera`: position `(0,0,3)`, front `(0,0,-1)`,
right `(1,0,0)`, up `(0,1,0)`. -/
theorem C5_view_transform_witness :
    (sampleCamera : Camera ℝ).getViewMatrix =
      { c0 := ⟨1, 0, 0, 0⟩, c1 := ⟨0, 1, 0, 0⟩, c2 := ⟨0, 0, 1, 0⟩, c3 := ⟨0, 0, -3, 1⟩ } := by
  have h := C5_view_transform.2.1 (sampleCamera : Camera ℝ)
    (by norm_num [sampleCamera, dot]) (by norm_num [sampleCamera, dot])
    (by norm_num [sampleCamera, dot])
    (by simp [sampleCamera, normalize, inversesqrt, cross, dot, Vec3.scale])
  rw [h]
  simp [sampleCamera, dot]

/-! ### Values of the Euler direction at right angles -/

theorem eulerDirection_zero_zero : eulerDirection 0 0 = ⟨1, 0, 0⟩ := by
  simp [eulerDirection]

theorem eulerDirection_neg_ninety_zero : eulerDirection (-90) 0 = ⟨0, 0, -1⟩ := by
  have h : (-90 : ℝ) * (Real.pi / 180) = -(Real.pi / 2) := by ring
  simp [eulerDirection, h]

theorem eulerDirection_ninety_zero : eulerDirection 90 0 = ⟨0, 0, 1⟩ := by
  have h : (90 : ℝ) * (Real.pi / 180) = Real.pi / 2 := by ring
  simp [eulerDirection, h]

/-- What the vec3 constructor leaves in the object: `Yaw` is the prior content of the storage,
the basis is derived from it. -/
theorem CameraVec_eq (mem : Camera ℝ) (position up : Vec3 ℝ) (yaw pitch : ℝ) :
    Camera.CameraVec mem position up yaw pitch =
      { Zoom := 45
        Position := position
        Front := eulerDirection mem.Yaw pitch
        Up := normalize (cross (normalize (cross (eulerDirection mem.Yaw pitch) up))
                (eulerDirection mem.Yaw pitch))
        Right := normalize (cross (eulerDirection mem.Yaw pitch) up)
        WorldUp := up
        Yaw := mem.Yaw
        Pitch := pitch
        movementSpeed := 5 / 2
        mouseSensitivity := 13421773 / 134217728 } := by
  rw [Camera.CameraVec, updateCameraVectors_eq]
  simp [ZOOM, SPEED, SENSITIVITY]

/-- What the eight-scalar constructor leaves in the object. -/
theorem CameraScalars_eq (mem : Camera ℝ) (posX posY posZ upX upY upZ yaw pitch : ℝ) :
    Camera.CameraScalars mem posX posY posZ upX upY upZ yaw pitch =
      { Zoom := 45
        Position := ⟨posX, posY, posZ⟩
        Front := eulerDirection yaw pitch
        Up := normalize (cross (normalize (cross (eulerDirection yaw pitch) ⟨upX, upY, upZ⟩))
                (eulerDirection yaw pitch))
        Right := normalize (cross (eulerDirection yaw pitch) ⟨upX, upY, upZ⟩)
        WorldUp := ⟨upX, upY, upZ⟩
        Yaw := yaw
        Pitch := pitch
        movementSpeed := 5 / 2
        mouseSensitivity := 13421773 / 134217728 } := by
  rw [Camera.CameraScalars, updateCameraVectors_eq]
  simp [ZOOM, SPEED, SENSITIVITY]

/-- C6: default construction. Evaluation of the call `Camera()` on zero-initialised storage
(an object of static storage duration): the constructor does not initialise `Yaw`, the basis
is derived from yaw 0 instead of the default -90, and `Front` is `(1,0,0)`, not `(0,0,-1)`.
In general `Front` is the Euler direction of whatever the storage held as `Yaw`; the
eight-scalar constructor, which assigns `Yaw`, gives `Front = (0,0,-1)`, `Right = (1,0,0)`,
`Up = (0,1,0)` on the same arguments. -/
theorem C6_default_construction_ignores_yaw :
    (Camera.CameraDefault (zeroMem : Camera ℝ)).Yaw = 0 ∧
    (Camera.CameraDefault (zeroMem : Camera ℝ)).Front = ⟨1, 0, 0⟩ ∧
    (Camera.CameraDefault (zeroMem : Camera ℝ)).Front ≠ ⟨0, 0, -1⟩ ∧
    (∀ mem : Camera ℝ, (Camera.CameraDefault mem).Front = eulerDirection mem.Yaw 0) ∧
    (∀ mem : Camera ℝ,
      (Camera.CameraScalars mem 0 0 0 0 1 0 YAW PITCH).Front = ⟨0, 0, -1⟩ ∧
      (Camera.CameraScalars mem 0 0 0 0 1 0 YAW PITCH).Right = ⟨1, 0, 0⟩ ∧
      (Camera.CameraScalars mem 0 0 0 0 1 0 YAW PITCH).Up = ⟨0, 1, 0⟩) := by
  have hF : (Camera.CameraDefault (zeroMem : Camera ℝ)).Front = ⟨1, 0, 0⟩ := by
    rw [Camera.CameraDefault, CameraVec_eq]
    simp only [zeroMem, PITCH, eulerDirection_zero_zero]
  refine ⟨rfl, hF, ?_, fun mem => ?_, fun mem => ?_⟩
  · rw [hF]
    intro h
    have hx := congrArg Vec3.x h
    norm_num at hx
  · rw [Camera.CameraDefault, CameraVec_eq]
    rfl
  · rw [CameraScalars_eq]
    simp only [YAW, PITCH, eulerDirection_neg_ninety_zero]
    refine ⟨trivial, ?_, ?_⟩ <;>
      simp [normalize, inversesqrt, cross, dot, Vec3.scale]

/-- C7: construction derives the basis from the supplied angles. The eight-scalar
constructor does so for all arguments: it stores `yaw` and `pitch` and derives `Front`,
`Right`, `Up` from them. The vec3 constructor stores `pitch` but not `yaw`: evaluated at
`Camera(vec3(0,0,0), vec3(0,1,0), 90, 0)` on zero-initialised storage it keeps `Yaw = 0`,
has `Front = (1,0,0)` where the direction of yaw 90 is `(0,0,1)`, and differs from the
eight-scalar constructor on the same arguments. -/
theorem C7_vec_constructor_drops_yaw :
    (∀ (mem : Camera ℝ) (posX posY posZ upX upY upZ yaw pitch : ℝ),
      (Camera.CameraScalars mem posX posY posZ upX upY upZ yaw pitch).Yaw = yaw ∧
      (Camera.CameraScalars mem posX posY posZ upX upY upZ yaw pitch).Pitch = pitch ∧
      (Camera.CameraScalars mem posX posY posZ upX upY upZ yaw pitch).Front =
        eulerDirection yaw pitch ∧
      (Camera.CameraScalars mem posX posY posZ upX upY upZ yaw pitch).Right =
        normalize (cross (Camera.CameraScalars mem posX posY posZ upX upY upZ yaw pitch).Front
          ⟨upX, upY, upZ⟩) ∧
      (Camera.CameraScalars mem posX posY posZ upX upY upZ yaw pitch).Up =
        normalize (cross (Camera.CameraScalars mem posX posY posZ upX upY upZ yaw pitch).Right
          (Camera.CameraScalars mem posX posY posZ upX upY upZ yaw pitch).Front)) ∧
    (∀ (mem : Camera ℝ) (position up : Vec3 ℝ) (yaw pitch : ℝ),
      (Camera.CameraVec mem position up yaw pitch).Yaw = mem.Yaw ∧
      (Camera.CameraVec mem position up yaw pitch).Pitch = pitch ∧
      (Camera.CameraVec mem position up yaw pitch).Front = eulerDirection mem.Yaw pitch) ∧
    (Camera.CameraVec (zeroMem : Camera ℝ) ⟨0, 0, 0⟩ ⟨0, 1, 0⟩ 90 0).Yaw = 0 ∧
    (Camera.CameraVec (zeroMem : Camera ℝ) ⟨0, 0, 0⟩ ⟨0, 1, 0⟩ 90 0).Yaw ≠ 90 ∧
    (Camera.CameraVec (zeroMem : Camera ℝ) ⟨0, 0, 0⟩ ⟨0, 1, 0⟩ 90 0).Front = ⟨1, 0, 0⟩ ∧
    eulerDirection 90 0 = ⟨0, 0, 1⟩ ∧
    (Camera.CameraVec (zeroMem : Camera ℝ) ⟨0, 0, 0⟩ ⟨0, 1, 0⟩ 90 0).Front ≠
      eulerDirection 90 0 ∧
    Camera.CameraVec (zeroMem : Camera ℝ) ⟨0, 0, 0⟩ ⟨0, 1, 0⟩ 90 0 ≠
      Camera.CameraScalars (zeroMem : Camera ℝ) 0 0 0 0 1 0 90 0 := by
  have hY : (Camera.CameraVec (zeroMem : Camera ℝ) ⟨0, 0, 0⟩ ⟨0, 1, 0⟩ 90 0).Yaw = 0 := rfl
  have hF : (Camera.CameraVec (zeroMem : Camera ℝ) ⟨0, 0, 0⟩ ⟨0, 1, 0⟩ 90 0).Front =
      ⟨1, 0, 0⟩ := by
    rw [CameraVec_eq]
    simp only [zeroMem, eulerDirection_zero_zero]
  refine ⟨fun mem posX posY posZ upX upY upZ yaw pitch => ?_,
    fun mem position up yaw pitch => ?_, hY, ?_, hF, eulerDirection_ninety_zero, ?_, ?_⟩
  · rw [CameraScalars_eq]
    exact ⟨rfl, rfl, rfl, rfl, rfl⟩
  · rw [CameraVec_eq]
    exact ⟨rfl, rfl, rfl⟩
  · rw [hY]; norm_num
  · rw [hF, eulerDirection_ninety_zero]
    intro h
    have hx := congrArg Vec3.x h
    norm_num at hx
  · intro h
    have hy := congrArg Camera.Yaw h
    rw [hY, CameraScalars_eq] at hy
    norm_num at hy

/-! ### Repeated scrolling -/

/-- Scrolling keeps the zoom in `[1, 45]` once it has been applied at least once. -/
theorem scrollTimes_Zoom_mem (c : Camera ℝ) (y : ℝ) (n : Nat) :
    1 ≤ (c.scrollTimes y (n + 1)).Zoom ∧ (c.scrollTimes y (n + 1)).Zoom ≤ 45 := by
  simp only [Camera.scrollTimes, processMouseScroll_Zoom]
  exact clamp_mem _

theorem clamp_sub_hundred (z : ℝ) (h : z ≤ 45) : clamp (z - 100) 1 45 = 1 := by
  unfold clamp
  rw [max_eq_right (by linarith), min_eq_left (by norm_num)]

theorem clamp_add_hundred (z : ℝ) (h : 1 ≤ z) : clamp (z - -100) 1 45 = 45 := by
  unfold clamp
  rw [max_eq_left (by linarith), min_eq_right (by linarith)]

/-- A scroll that does not move the zoom leaves the whole state as it was. -/
theorem processMouseScroll_eq_self (c : Camera ℝ) (y : ℝ)
    (h : (c.processMouseScroll y).Zoom = c.Zoom) : c.processMouseScroll y = c := by
  have hrest : c.processMouseScroll y = { c with Zoom := (c.processMouseScroll y).Zoom } := by
    simp only [Camera.processMouseScroll]
    split_ifs <;> rfl
  rw [hrest, h]

/-- C8: zoom clamp idempotence. For every `Zoom` in [1,45] and every `n ≥ 1`, `n`
applications of `processMouseScroll(100)` leave `Zoom` exactly 1 and `n` applications of
`processMouseScroll(-100)` leave it exactly 45; at the bound a further application of the same
call changes nothing. -/
theorem C8_zoom_clamp_idempotent (c : Camera ℝ) (hlo : 1 ≤ c.Zoom) (hhi : c.Zoom ≤ 45)
    (n : Nat) (hn : 1 ≤ n) :
    (c.scrollTimes 100 n).Zoom = 1 ∧
    (c.scrollTimes (-100) n).Zoom = 45 ∧
    (c.scrollTimes 100 n).processMouseScroll 100 = c.scrollTimes 100 n ∧
    (c.scrollTimes (-100) n).processMouseScroll (-100) = c.scrollTimes (-100) n := by
  obtain ⟨m, rfl⟩ : ∃ m, n = m + 1 := ⟨n - 1, by omega⟩
  have hprev : ∀ (y : ℝ) (k : Nat),
      1 ≤ (c.scrollTimes y k).Zoom ∧ (c.scrollTimes y k).Zoom ≤ 45 := by
    intro y k
    cases k with
    | zero => exact ⟨hlo, hhi⟩
    | succ k => exact scrollTimes_Zoom_mem c y k
  have h1 : (c.scrollTimes 100 (m + 1)).Zoom = 1 := by
    simp only [Camera.scrollTimes, processMouseScroll_Zoom]
    exact clamp_sub_hundred _ (hprev 100 m).2
  have h2 : (c.scrollTimes (-100) (m + 1)).Zoom = 45 := by
    simp only [Camera.scrollTimes, processMouseScroll_Zoom]
    exact clamp_add_hundred _ (hprev (-100) m).1
  refine ⟨h1, h2, ?_, ?_⟩
  · apply processMouseScroll_eq_self
    rw [processMouseScroll_Zoom, h1]
    exact clamp_sub_hundred _ (by norm_num)
  · apply processMouseScroll_eq_self
    rw [processMouseScroll_Zoom, h2]
    exact clamp_add_hundred _ (by norm_num)

/-- C8 at a concrete input: from `Zoom = 45`, three scrolls of 100 give `Zoom = 1`, three
scrolls of -100 give `Zoom = 45`. -/
theorem C8_zoom_clamp_idempotent_witness :
    ((sampleCamera : Camera ℝ).scrollTimes 100 3).Zoom = 1 ∧
    ((sampleCamera : Camera ℝ).scrollTimes (-100) 3).Zoom = 45 :=
  ⟨(C8_zoom_clamp_idempotent sampleCamera (by norm_num [sampleCamera])
      (by norm_num [sampleCamera]) 3 (by decide)).1,
   (C8_zoom_clamp_idempotent sampleCamera (by norm_num [sampleCamera])
      (by norm_num [sampleCamera]) 3 (by decide)).2.1⟩

/-! ### Reachable states -/

/-- A keyboard update writes `Position` only. -/
theorem processKeyboard_eq (c : Camera ℝ) (d : Camera_Movement) (dt : ℝ) :
    c.processKeyboard d dt = { c with Position := (c.processKeyboard d dt).Position } := by
  cases d <;> simp [Camera.processKeyboard]

/-- A scroll update writes `Zoom` only. -/
theorem processMouseScroll_eq (c : Camera ℝ) (y : ℝ) :
    c.processMouseScroll y = { c with Zoom := (c.processMouseScroll y).Zoom } := by
  simp only [Camera.processMouseScroll]
  split_ifs <;> rfl

/-- A look update with the constraint enabled ends with the pitch in `[-89, 89]`. -/
theorem processMouseMovement_PitchInRange (c : Camera ℝ) (x y : ℝ) (k : Nat) (hk : k ≠ 0) :
    PitchInRange (c.processMouseMovement x y k) := by
  unfold PitchInRange
  rw [processMouseMovement_Pitch_constrained c x y k hk]
  split_ifs with h1 h2
  · norm_num
  · norm_num
  · exact ⟨by linarith, by linarith⟩

/-- Each call with the pitch constraint enabled keeps the pitch in `[-89, 89]`. -/
theorem step_PitchInRange (c : Camera ℝ) (op : Op ℝ) (hop : op.constrained = true)
    (h : PitchInRange c) : PitchInRange (c.step op) := by
  cases op with
  | keyboard d dt =>
    simp only [Camera.step]
    rw [processKeyboard_eq]
    exact h
  | mouse x y k =>
    simp only [Op.constrained, bne_iff_ne, ne_eq] at hop
    exact processMouseMovement_PitchInRange c x y k hop
  | scroll y =>
    simp only [Camera.step]
    rw [processMouseScroll_eq]
    exact h

theorem run_PitchInRange (ops : List (Op ℝ)) :
    ∀ c : Camera ℝ, (∀ op ∈ ops, op.constrained = true) → PitchInRange c →
      PitchInRange (c.run ops) := by
  induction ops with
  | nil => intro c _ h; exact h
  | cons op rest ih =>
    intro c hall h
    simp only [Camera.run, List.foldl_cons]
    exact ih (c.step op) (fun o ho => hall o (List.mem_cons_of_mem _ ho))
      (step_PitchInRange c op (hall op (List.mem_cons_self _ _)) h)

/-- The basis written by `updateCameraVectors` is the derived one. -/
theorem updateCameraVectors_BasisDerived (c : Camera ℝ) :
    BasisDerived c.updateCameraVectors := by
  rw [updateCameraVectors_eq]
  exact ⟨rfl, rfl, rfl⟩

/-- Every call keeps the cached basis equal to the derived one. -/
theorem step_BasisDerived (c : Camera ℝ) (op : Op ℝ) (h : BasisDerived c) :
    BasisDerived (c.step op) := by
  cases op with
  | keyboard d dt =>
    simp only [Camera.step]
    rw [processKeyboard_eq]
    exact h
  | mouse x y k => exact updateCameraVectors_BasisDerived _
  | scroll y =>
    simp only [Camera.step]
    rw [processMouseScroll_eq]
    exact h

theorem run_BasisDerived (ops : List (Op ℝ)) :
    ∀ c : Camera ℝ, BasisDerived c → BasisDerived (c.run ops) := by
  induction ops with
  | nil => intro c h; exact h
  | cons op rest ih =>
    intro c h
    simp only [Camera.run, List.foldl_cons]
    exact ih (c.step op) (step_BasisDerived c op h)

/-- A derived basis whose `Front × WorldUp` is not the zero vector is orthonormal. -/
theorem Orthonormal_of_BasisDerived (c : Camera ℝ) (h : BasisDerived c)
    (hne : cross c.Front c.WorldUp ≠ ⟨0, 0, 0⟩) : Orthonormal c := by
  obtain ⟨hF, hR, hU⟩ := h
  have hFF : dot c.Front c.Front = 1 := by rw [hF]; exact dot_eulerDirection _ _
  obtain ⟨hRR, hUeq, hUU, hFR, hFU, hRU⟩ := frame_of_nondegenerate _ _ hFF hne
  rw [← hR] at hRR hUeq hUU hFR hFU hRU
  rw [← hU] at hUeq
  rw [← hUeq] at hUU hFU hRU
  exact ⟨length_of_dot_eq_one _ hFF, length_of_dot_eq_one _ hRR, length_of_dot_eq_one _ hUU,
    hFR, hFU, hRU⟩

/-- Counterexample to C9 as stated: a camera constructed with pitch 100 and then moved and
zoomed (no look update at all) has pitch 100, outside [-89, 89]. -/
theorem C9_counterexample :
    ((Camera.CameraScalars (zeroMem : Camera ℝ) 0 0 0 0 1 0 (-90) 100).run
        [Op.keyboard Camera_Movement.FORWARD 1, Op.scroll 1]).Pitch = 100 ∧
    ¬ PitchInRange ((Camera.CameraScalars (zeroMem : Camera ℝ) 0 0 0 0 1 0 (-90) 100).run
        [Op.keyboard Camera_Movement.FORWARD 1, Op.scroll 1]) := by
  have h : ((Camera.CameraScalars (zeroMem : Camera ℝ) 0 0 0 0 1 0 (-90) 100).run
      [Op.keyboard Camera_Movement.FORWARD 1, Op.scroll 1]).Pitch = 100 := by
    simp only [Camera.run, List.foldl_cons, List.foldl_nil, Camera.step]
    rw [processMouseScroll_eq, processKeyboard_eq, CameraScalars_eq]
  refine ⟨h, ?_⟩
  unfold PitchInRange
  rw [h]
  norm_num

/-- C9 (amended): pitch range invariant. In every state reached by a finite sequence of
`processKeyboard`, `processMouseMovement` and `processMouseScroll` calls whose look updates
all have `constrainPitch` enabled, the pitch lies in [-89, 89] provided the sequence starts
from a construction (either constructor) whose pitch argument lies in [-89, 89], or starts
right after a look update with `constrainPitch` enabled applied to any state. -/
theorem C9_pitch_range_invariant :
    (∀ (mem : Camera ℝ) (position up : Vec3 ℝ) (yaw pitch : ℝ) (ops : List (Op ℝ)),
      -89 ≤ pitch → pitch ≤ 89 → (∀ op ∈ ops, op.constrained = true) →
      PitchInRange ((Camera.CameraVec mem position up yaw pitch).run ops)) ∧
    (∀ (mem : Camera ℝ) (posX posY posZ upX upY upZ yaw pitch : ℝ) (ops : List (Op ℝ)),
      -89 ≤ pitch → pitch ≤ 89 → (∀ op ∈ ops, op.constrained = true) →
      PitchInRange ((Camera.CameraScalars mem posX posY posZ upX upY upZ yaw pitch).run ops)) ∧
    (∀ (c : Camera ℝ) (xOffset yOffset : ℝ) (constrainPitch : Nat) (ops : List (Op ℝ)),
      constrainPitch ≠ 0 → (∀ op ∈ ops, op.constrained = true) →
      PitchInRange ((c.processMouseMovement xOffset yOffset constrainPitch).run ops)) := by
  refine ⟨?_, ?_, ?_⟩
  · intro mem position up yaw pitch ops hlo hhi hall
    apply run_PitchInRange ops _ hall
    rw [CameraVec_eq]
    exact ⟨hlo, hhi⟩
  · intro mem posX posY posZ upX upY upZ yaw pitch ops hlo hhi hall
    apply run_PitchInRange ops _ hall
    rw [CameraScalars_eq]
    exact ⟨hlo, hhi⟩
  · intro c xOffset yOffset constrainPitch ops hk hall
    exact run_PitchInRange ops _ hall (processMouseMovement_PitchInRange c _ _ _ hk)

/-- C9 (amended) at a concrete input: constructed with pitch 80, then a look update of
`yOffset = 200` (pitch 80 + 20 truncated to 89), a move, and a look update of
`yOffset = -5000`: the pitch is in range. -/
theorem C9_pitch_range_invariant_witness :
    PitchInRange ((Camera.CameraScalars (zeroMem : Camera ℝ) 0 0 0 0 1 0 (-90) 80).run
      [Op.mouse 0 200 1, Op.keyboard Camera_Movement.FORWARD 1, Op.mouse 3 (-5000) 1]) :=
  C9_pitch_range_invariant.2.1 zeroMem 0 0 0 0 1 0 (-90) 80
    [Op.mouse 0 200 1, Op.keyboard Camera_Movement.FORWARD 1, Op.mouse 3 (-5000) 1]
    (by norm_num) (by norm_num) (by simp [Op.constrained])

/-- Counterexample to C10 as stated: constructed with `worldUp = (1,0,0)`, yaw 0, pitch 0,
the front direction is `(1,0,0)`, parallel to `worldUp`; `Front × WorldUp` is the zero vector
and `Right` is not of unit length. -/
theorem C10_counterexample :
    (Camera.CameraScalars (zeroMem : Camera ℝ) 0 0 0 1 0 0 0 0).Front = ⟨1, 0, 0⟩ ∧
    cross (Camera.CameraScalars (zeroMem : Camera ℝ) 0 0 0 1 0 0 0 0).Front
      (Camera.CameraScalars (zeroMem : Camera ℝ) 0 0 0 1 0 0 0 0).WorldUp = ⟨0, 0, 0⟩ ∧
    length (Camera.CameraScalars (zeroMem : Camera ℝ) 0 0 0 1 0 0 0 0).Right ≠ 1 ∧
    ¬ Orthonormal ((Camera.CameraScalars (zeroMem : Camera ℝ) 0 0 0 1 0 0 0 0).run []) := by
  have hR : length (Camera.CameraScalars (zeroMem : Camera ℝ) 0 0 0 1 0 0 0 0).Right ≠ 1 := by
    rw [CameraScalars_eq]
    simp [eulerDirection_zero_zero, length, normalize, inversesqrt, cross, dot, Vec3.scale]
  refine ⟨?_, ?_, hR, ?_⟩
  · rw [CameraScalars_eq]
    simp [eulerDirection_zero_zero]
  · rw [CameraScalars_eq]
    simp [eulerDirection_zero_zero, cross]
  · intro h
    exact hR h.2.1

/-- C10 (amended): orthonormal-basis state invariant. In every state reached from a
construction (either constructor, any arguments, any `worldUp`) by any sequence of
operations, if `Front × WorldUp` is not the zero vector (`WorldUp` is neither zero nor
parallel to `Front`), then `Front`, `Right`, `Up` are of unit length and pairwise orthogonal,
with `Right = normalize(Front × WorldUp)` and `Up = normalize(Right × Front)`. -/
theorem C10_orthonormal_invariant :
    (∀ (mem : Camera ℝ) (position up : Vec3 ℝ) (yaw pitch : ℝ) (ops : List (Op ℝ)),
      cross ((Camera.CameraVec mem position up yaw pitch).run ops).Front
        ((Camera.CameraVec mem position up yaw pitch).run ops).WorldUp ≠ ⟨0, 0, 0⟩ →
      Orthonormal ((Camera.CameraVec mem position up yaw pitch).run ops) ∧
      BasisDerived ((Camera.CameraVec mem position up yaw pitch).run ops)) ∧
    (∀ (mem : Camera ℝ) (posX posY posZ upX upY upZ yaw pitch : ℝ) (ops : List (Op ℝ)),
      cross ((Camera.CameraScalars mem posX posY posZ upX upY upZ yaw pitch).run ops).Front
        ((Camera.CameraScalars mem posX posY posZ upX upY upZ yaw pitch).run ops).WorldUp ≠
          ⟨0, 0, 0⟩ →
      Orthonormal ((Camera.CameraScalars mem posX posY posZ upX upY upZ yaw pitch).run ops) ∧
      BasisDerived
        ((Camera.CameraScalars mem posX posY posZ upX upY upZ yaw pitch).run ops)) := by
  refine ⟨?_, ?_⟩
  · intro mem position up yaw pitch ops hne
    have hB := run_BasisDerived ops _ (updateCameraVectors_BasisDerived
      ({ mem with
          Front := ⟨0, 0, -1⟩
          movementSpeed := SPEED
          mouseSensitivity := SENSITIVITY
          Zoom := ZOOM
          Position := position
          WorldUp := up
          Pitch := pitch } : Camera ℝ))
    exact ⟨Orthonormal_of_BasisDerived _ hB hne, hB⟩
  · intro mem posX posY posZ upX upY upZ yaw pitch ops hne
    have hB := run_BasisDerived ops _ (updateCameraVectors_BasisDerived
      ({ mem with
          Front := ⟨0, 0, -1⟩
          movementSpeed := SPEED
          mouseSensitivity := SENSITIVITY
          Zoom := ZOOM
          Position := ⟨posX, posY, posZ⟩
          WorldUp := ⟨upX, upY, upZ⟩
          Yaw := yaw
          Pitch := pitch } : Camera ℝ))
    exact ⟨Orthonormal_of_BasisDerived _ hB hne, hB⟩

/-- A look update writes `Yaw`, `Pitch` and then the basis. -/
theorem processMouseMovement_eq (c : Camera ℝ) (x y : ℝ) (k : Nat) :
    c.processMouseMovement x y k =
      Camera.updateCameraVectors
        { c with
          Yaw := c.Yaw + x * c.mouseSensitivity
          Pitch := (c.processMouseMovement x y k).Pitch } := by
  simp only [Camera.processMouseMovement]
  split_ifs <;> rfl

/-- C10 (amended) at a concrete input: constructed at `(0,0,3)` with `worldUp = (0,1,0)`,
yaw -90, pitch 0, then a look update with zero offsets, a strafe and a scroll; `Front` is
`(0,0,-1)`, `Front × WorldUp = (1,0,0)` is not zero, and the basis is orthonormal. -/
theorem C10_orthonormal_invariant_witness :
    Orthonormal ((Camera.CameraScalars (zeroMem : Camera ℝ) 0 0 3 0 1 0 (-90) 0).run
      [Op.mouse 0 0 1, Op.keyboard Camera_Movement.RIGHT 1, Op.scroll 2]) :=
  (C10_orthonormal_invariant.2 zeroMem 0 0 3 0 1 0 (-90) 0
    [Op.mouse 0 0 1, Op.keyboard Camera_Movement.RIGHT 1, Op.scroll 2]
    (by
      simp only [Camera.run, List.foldl_cons, List.foldl_nil, Camera.step]
      rw [processMouseScroll_eq, processKeyboard_eq, processMouseMovement_eq,
        processMouseMovement_Pitch_constrained _ _ _ _ (by decide), updateCameraVectors_eq,
        CameraScalars_eq]
      norm_num [eulerDirection_neg_ninety_zero, cross])).1

/-! ### Lemmas for movement, periodicity and the closed form of the basis -/

theorem dot_of_length_eq_one (v : Vec3 ℝ) (h : length v = 1) : dot v v = 1 := by
  simp only [length, sqrt_real] at h
  exact (Real.sqrt_eq_one).mp h

theorem length_scale (v : Vec3 ℝ) (s : ℝ) :
    length (v.scale s) = Real.sqrt (dot v v) * |s| := by
  have h : dot (v.scale s) (v.scale s) = dot v v * s ^ 2 := by
    simp only [dot, Vec3.scale]; ring
  simp only [length, sqrt_real]
  rw [h, Real.sqrt_mul (dot_self_nonneg v), Real.sqrt_sq_eq_abs]

theorem displacement_eq (c : Camera ℝ) (dt : ℝ) :
    c.displacement Camera_Movement.FORWARD dt = c.Front.scale (c.movementSpeed * dt) ∧
    c.displacement Camera_Movement.BACKWARD dt = c.Front.scale (-(c.movementSpeed * dt)) ∧
    c.displacement Camera_Movement.LEFT dt = c.Right.scale (-(c.movementSpeed * dt)) ∧
    c.displacement Camera_Movement.RIGHT dt = c.Right.scale (c.movementSpeed * dt) := by
  refine ⟨?_, ?_, ?_, ?_⟩ <;>
    simp [Camera.displacement, Camera.processKeyboard, Vec3.add, Vec3.sub, Vec3.scale]

theorem processKeyboard_Position (c : Camera ℝ) (d : Camera_Movement) (dt : ℝ) :
    (c.processKeyboard d dt).Position = c.Position.add (c.displacement d dt) := by
  simp only [Camera.displacement, Vec3.add, Vec3.sub]
  apply Vec3.ext <;> simp

theorem displacement_processKeyboard (c : Camera ℝ) (d1 d2 : Camera_Movement) (dt : ℝ) :
    (c.processKeyboard d1 dt).displacement d2 dt = c.displacement d2 dt := by
  obtain ⟨h1, h2, h3, h4⟩ := displacement_eq c dt
  obtain ⟨k1, k2, k3, k4⟩ := displacement_eq (c.processKeyboard d1 dt) dt
  rw [processKeyboard_eq c d1 dt] at k1 k2 k3 k4
  cases d2
  · rw [processKeyboard_eq c d1 dt, k1, h1]
  · rw [processKeyboard_eq c d1 dt, k2, h2]
  · rw [processKeyboard_eq c d1 dt, k3, h3]
  · rw [processKeyboard_eq c d1 dt, k4, h4]

/-- Position after two keyboard updates: the old position plus both displacements. -/
theorem processKeyboard_twice_Position (c : Camera ℝ) (d1 d2 : Camera_Movement) (dt : ℝ) :
    ((c.processKeyboard d1 dt).processKeyboard d2 dt).Position =
      (c.Position.add (c.displacement d1 dt)).add (c.displacement d2 dt) := by
  rw [processKeyboard_Position, displacement_processKeyboard, processKeyboard_Position]

/-- Squared length of the sum of two orthogonal vectors scaled by `a` and `b`. -/
theorem dot_add_scale (F R : Vec3 ℝ) (a b : ℝ) (hF : dot F F = 1) (hR : dot R R = 1)
    (hFR : dot F R = 0) :
    dot ((F.scale a).add (R.scale b)) ((F.scale a).add (R.scale b)) = a ^ 2 + b ^ 2 := by
  simp only [dot, Vec3.add, Vec3.scale] at *
  linear_combination a ^ 2 * hF + b ^ 2 * hR + 2 * a * b * hFR

/-- Adding a whole number of turns to the yaw does not change the Euler direction. -/
theorem eulerDirection_add_turns (yaw pitch : ℝ) (n : ℤ) :
    eulerDirection (yaw + 360 * n) pitch = eulerDirection yaw pitch := by
  have h : (yaw + 360 * (n : ℝ)) * (Real.pi / 180) =
      yaw * (Real.pi / 180) + n * (2 * Real.pi) := by ring
  simp only [eulerDirection, h, Real.cos_add_int_mul_two_pi, Real.sin_add_int_mul_two_pi]

/-- With `WorldUp = (0,1,0)` and a positive cosine of the pitch, `Right` is the horizontal
unit vector `(-sin yaw, 0, cos yaw)`. -/
theorem right_closed_form (yaw pitch : ℝ) (h : 0 < Real.cos (pitch * (Real.pi / 180))) :
    normalize (cross (eulerDirection yaw pitch) ⟨0, 1, 0⟩) =
      ⟨-Real.sin (yaw * (Real.pi / 180)), 0, Real.cos (yaw * (Real.pi / 180))⟩ := by
  have h1 := Real.cos_sq_add_sin_sq (yaw * (Real.pi / 180))
  have hd : dot (cross (eulerDirection yaw pitch) ⟨0, 1, 0⟩)
      (cross (eulerDirection yaw pitch) ⟨0, 1, 0⟩) = Real.cos (pitch * (Real.pi / 180)) ^ 2 := by
    simp only [dot, cross, eulerDirection]
    linear_combination Real.cos (pitch * (Real.pi / 180)) ^ 2 * h1
  simp only [normalize, inversesqrt, sqrt_real, hd, Real.sqrt_sq h.le]
  simp only [cross, eulerDirection, Vec3.scale]
  have hcp := h.ne'
  generalize Real.cos (pitch * (Real.pi / 180)) = cp at hcp
  generalize Real.sin (yaw * (Real.pi / 180)) = sy
  generalize Real.cos (yaw * (Real.pi / 180)) = cy
  apply Vec3.ext
  · dsimp only
    field_simp
  · dsimp only
    ring
  · dsimp only
    field_simp

/-- A derived basis with `WorldUp = (0,1,0)` and the pitch in `[-89, 89]`: `Right` is
horizontal and the vertical component of `Up` is the cosine of the pitch, which is positive. -/
theorem upright_of_BasisDerived (c : Camera ℝ) (hB : BasisDerived c)
    (hup : c.WorldUp = ⟨0, 1, 0⟩) (hP : PitchInRange c) :
    c.Right.y = 0 ∧ c.Up.y = Real.cos (c.Pitch * (Real.pi / 180)) ∧ 0 < c.Up.y ∧
      0 < dot c.Up c.WorldUp := by
  obtain ⟨hF, hR, hU⟩ := hB
  have hc := cos_pitch_pos c.Pitch hP.1 hP.2
  have h1 := Real.cos_sq_add_sin_sq (c.Yaw * (Real.pi / 180))
  have hne : cross c.Front c.WorldUp ≠ ⟨0, 0, 0⟩ := by
    rw [hF, hup]
    intro h
    exact hc.ne' ((cross_eulerDirection_up_eq_zero_iff _ _).mp h)
  have hFF : dot c.Front c.Front = 1 := by rw [hF]; exact dot_eulerDirection _ _
  obtain ⟨-, hUeq, -, -, -, -⟩ := frame_of_nondegenerate _ _ hFF hne
  rw [← hR] at hUeq
  have hU2 : c.Up = cross c.Right c.Front := by rw [hU, hUeq]
  have hR2 : c.Right = ⟨-Real.sin (c.Yaw * (Real.pi / 180)), 0,
      Real.cos (c.Yaw * (Real.pi / 180))⟩ := by
    rw [hR, hF, hup]; exact right_closed_form _ _ hc
  have hy : c.Up.y = Real.cos (c.Pitch * (Real.pi / 180)) := by
    rw [hU2, hR2, hF]
    simp only [cross, eulerDirection]
    linear_combination Real.cos (c.Pitch * (Real.pi / 180)) * h1
  refine ⟨by rw [hR2], hy, by rw [hy]; exact hc, ?_⟩
  rw [hup]
  simp only [dot, mul_zero, mul_one, zero_add, add_zero]
  rw [hy]; exact hc

theorem step_WorldUp (c : Camera ℝ) (op : Op ℝ) : (c.step op).WorldUp = c.WorldUp := by
  cases op with
  | keyboard d dt => simp only [Camera.step]; rw [processKeyboard_eq]
  | mouse x y k => simp only [Camera.step]; rw [processMouseMovement_eq]; rfl
  | scroll y => simp only [Camera.step]; rw [processMouseScroll_eq]

theorem run_WorldUp (ops : List (Op ℝ)) : ∀ c : Camera ℝ, (c.run ops).WorldUp = c.WorldUp := by
  induction ops with
  | nil => intro c; rfl
  | cons op rest ih =>
    intro c
    simp only [Camera.run, List.foldl_cons]
    exact (ih (c.step op)).trans (step_WorldUp c op)

/-- The cosine of an angle in degrees vanishes exactly at `90 + 180·n`. -/
theorem cos_degrees_eq_zero_iff (pitch : ℝ) :
    Real.cos (pitch * (Real.pi / 180)) = 0 ↔ ∃ n : ℤ, pitch = 90 + 180 * n := by
  have hpi := Real.pi_pos
  rw [Real.cos_eq_zero_iff]
  constructor
  · rintro ⟨n, hn⟩
    refine ⟨n, ?_⟩
    have h : (pitch - (90 + 180 * (n : ℝ))) * Real.pi = 0 := by linear_combination 180 * hn
    rcases mul_eq_zero.mp h with h | h
    · linarith
    · exact absurd h hpi.ne'
  · rintro ⟨n, hn⟩
    refine ⟨n, ?_⟩
    rw [hn]; ring

/-- Normalising the zero vector does not give a unit vector. -/
theorem length_normalize_zero_ne_one (v : Vec3 ℝ) (h : v = ⟨0, 0, 0⟩) :
    length (normalize v) ≠ 1 := by
  rw [h]
  simp [length, normalize, Vec3.scale, dot]

/-- Double cross product: `(F × U) × F = U` when `|F| = 1` and `F · U = 0`. -/
theorem cross_cross_left_of_orthonormal (F U : Vec3 ℝ) (hF : dot F F = 1)
    (hFU : dot F U = 0) : cross (cross F U) F = U := by
  simp only [dot] at hF hFU
  apply Vec3.ext
  · simp only [cross]
    linear_combination U.x * hF - F.x * hFU
  · simp only [cross]
    linear_combination U.y * hF - F.y * hFU
  · simp only [cross]
    linear_combination U.z * hF - F.z * hFU

/-- The look-at matrix of a camera whose `Front` and `Up` are orthonormal: rows `Front × Up`,
`Up`, `-Front`. -/
theorem getViewMatrix_of_front_up (c : Camera ℝ) (hF : dot c.Front c.Front = 1)
    (hU : dot c.Up c.Up = 1) (hFU : dot c.Front c.Up = 0) :
    c.getViewMatrix =
      { c0 := ⟨(cross c.Front c.Up).x, c.Up.x, -c.Front.x, 0⟩
        c1 := ⟨(cross c.Front c.Up).y, c.Up.y, -c.Front.y, 0⟩
        c2 := ⟨(cross c.Front c.Up).z, c.Up.z, -c.Front.z, 0⟩
        c3 := ⟨-dot (cross c.Front c.Up) c.Position, -dot c.Up c.Position,
               dot c.Front c.Position, 1⟩ } := by
  have hsub : (c.Position.add c.Front).sub c.Position = c.Front := by
    apply Vec3.ext <;> simp [Vec3.add, Vec3.sub]
  have hf : normalize ((c.Position.add c.Front).sub c.Position) = c.Front := by
    rw [hsub, normalize_of_dot_eq_one _ hF]
  have hSS : dot (cross c.Front c.Up) (cross c.Front c.Up) = 1 := by
    rw [dot_cross_cross, hF, hU, hFU]; norm_num
  have hs : normalize (cross c.Front c.Up) = cross c.Front c.Up :=
    normalize_of_dot_eq_one _ hSS
  simp only [Camera.getViewMatrix, lookAt, hf, hs,
    cross_cross_left_of_orthonormal _ _ hF hFU]

/-! ## Claims on accumulation, movement, periodicity and the view transform -/

/-- C11: look accumulation. `processMouseMovement` sets yaw to
`oldYaw + mouseSensitivity*xOffset` whatever `constrainPitch` is (no clamping, no
normalisation), and with `constrainPitch` false (zero) sets pitch to
`oldPitch + mouseSensitivity*yOffset`, unclamped. -/
theorem C11_look_accumulation :
    (∀ (c : Camera ℝ) (xOffset yOffset : ℝ) (constrainPitch : Nat),
      (c.processMouseMovement xOffset yOffset constrainPitch).Yaw =
        c.Yaw + c.mouseSensitivity * xOffset) ∧
    (∀ (c : Camera ℝ) (xOffset yOffset : ℝ),
      (c.processMouseMovement xOffset yOffset 0).Pitch =
        c.Pitch + c.mouseSensitivity * yOffset) := by
  refine ⟨fun c xOffset yOffset constrainPitch => ?_, fun c xOffset yOffset => ?_⟩
  · rw [processMouseMovement_eq, updateCameraVectors_Yaw, mul_comm]
  · simp only [Camera.processMouseMovement, updateCameraVectors_Pitch, ne_eq,
      not_true_eq_false, if_false]
    rw [mul_comm]

/-- C12: unnormalised additive diagonal movement. Two `processKeyboard` calls commute, the
displacement of the pair is the sum of the two single displacements (FORWARD and RIGHT in
either order give `Position + (Front + Right)*v`, `v = movementSpeed*deltaTime`), and with
`Front`, `Right` orthonormal a forward/backward call combined with a left/right call moves
the camera by `sqrt(2)*|v|`, strictly more than the `|v|` of a single call when `v ≠ 0`. -/
theorem C12_diagonal_movement :
    (∀ (c : Camera ℝ) (d1 d2 : Camera_Movement) (deltaTime : ℝ),
      (c.processKeyboard d1 deltaTime).processKeyboard d2 deltaTime =
        (c.processKeyboard d2 deltaTime).processKeyboard d1 deltaTime ∧
      ((c.processKeyboard d1 deltaTime).processKeyboard d2 deltaTime).Position.sub c.Position =
        (c.displacement d1 deltaTime).add (c.displacement d2 deltaTime)) ∧
    (∀ (c : Camera ℝ) (deltaTime : ℝ),
      ((c.processKeyboard Camera_Movement.FORWARD deltaTime).processKeyboard
          Camera_Movement.RIGHT deltaTime).Position =
        c.Position.add ((c.Front.add c.Right).scale (c.movementSpeed * deltaTime)) ∧
      ((c.processKeyboard Camera_Movement.RIGHT deltaTime).processKeyboard
          Camera_Movement.FORWARD deltaTime).Position =
        c.Position.add ((c.Front.add c.Right).scale (c.movementSpeed * deltaTime))) ∧
    (∀ (c : Camera ℝ) (d1 d2 : Camera_Movement) (deltaTime : ℝ),
      length c.Front = 1 → length c.Right = 1 → dot c.Front c.Right = 0 →
      (d1 = Camera_Movement.FORWARD ∨ d1 = Camera_Movement.BACKWARD) →
      (d2 = Camera_Movement.LEFT ∨ d2 = Camera_Movement.RIGHT) →
      length (((c.processKeyboard d1 deltaTime).processKeyboard d2 deltaTime).Position.sub
          c.Position) = Real.sqrt 2 * |c.movementSpeed * deltaTime| ∧
      length (c.displacement d1 deltaTime) = |c.movementSpeed * deltaTime| ∧
      length (c.displacement d2 deltaTime) = |c.movementSpeed * deltaTime| ∧
      (c.movementSpeed * deltaTime ≠ 0 →
        |c.movementSpeed * deltaTime| < Real.sqrt 2 * |c.movementSpeed * deltaTime|)) := by
  refine ⟨fun c d1 d2 dt => ⟨?_, ?_⟩, fun c dt => ⟨?_, ?_⟩, ?_⟩
  · rw [processKeyboard_eq (c.processKeyboard d1 dt), processKeyboard_eq (c.processKeyboard d2 dt),
      processKeyboard_twice_Position, processKeyboard_twice_Position,
      processKeyboard_eq c d1 dt, processKeyboard_eq c d2 dt]
    have h : (c.Position.add (c.displacement d1 dt)).add (c.displacement d2 dt) =
        (c.Position.add (c.displacement d2 dt)).add (c.displacement d1 dt) := by
      apply Vec3.ext <;> simp only [Vec3.add] <;> ring
    rw [h]
  · rw [processKeyboard_twice_Position]
    apply Vec3.ext <;> simp only [Vec3.add, Vec3.sub] <;> ring
  · rw [processKeyboard_twice_Position, (displacement_eq c dt).1, (displacement_eq c dt).2.2.2]
    apply Vec3.ext <;> simp only [Vec3.add, Vec3.scale] <;> ring
  · rw [processKeyboard_twice_Position, (displacement_eq c dt).1, (displacement_eq c dt).2.2.2]
    apply Vec3.ext <;> simp only [Vec3.add, Vec3.scale] <;> ring
  · intro c d1 d2 dt hF hR hFR hd1 hd2
    have hFF := dot_of_length_eq_one _ hF
    have hRR := dot_of_length_eq_one _ hR
    obtain ⟨e1, e2, e3, e4⟩ := displacement_eq c dt
    have hsum : ((c.processKeyboard d1 dt).processKeyboard d2 dt).Position.sub c.Position =
        (c.displacement d1 dt).add (c.displacement d2 dt) := by
      rw [processKeyboard_twice_Position]
      apply Vec3.ext <;> simp only [Vec3.add, Vec3.sub] <;> ring
    have hdiag : ∀ a b : ℝ, a ^ 2 = (c.movementSpeed * dt) ^ 2 →
        b ^ 2 = (c.movementSpeed * dt) ^ 2 →
        length ((c.Front.scale a).add (c.Right.scale b)) =
          Real.sqrt 2 * |c.movementSpeed * dt| := by
      intro a b ha hb
      simp only [length, sqrt_real]
      rw [dot_add_scale _ _ a b hFF hRR hFR, ha, hb, ← two_mul,
        Real.sqrt_mul (by norm_num), Real.sqrt_sq_eq_abs]
    have hsingleF : ∀ a : ℝ, |a| = |c.movementSpeed * dt| →
        length (c.Front.scale a) = |c.movementSpeed * dt| := by
      intro a ha
      rw [length_scale, hFF, Real.sqrt_one, one_mul, ha]
    have hsingleR : ∀ a : ℝ, |a| = |c.movementSpeed * dt| →
        length (c.Right.scale a) = |c.movementSpeed * dt| := by
      intro a ha
      rw [length_scale, hRR, Real.sqrt_one, one_mul, ha]
    have hlt : c.movementSpeed * dt ≠ 0 →
        |c.movementSpeed * dt| < Real.sqrt 2 * |c.movementSpeed * dt| := by
      intro hv
      have hpos : 0 < |c.movementSpeed * dt| := abs_pos.mpr hv
      have h2 : (1 : ℝ) < Real.sqrt 2 := by
        rw [show (1 : ℝ) = Real.sqrt 1 from Real.sqrt_one.symm]
        exact Real.sqrt_lt_sqrt (by norm_num) (by norm_num)
      nlinarith
    rw [hsum]
    rcases hd1 with rfl | rfl <;> rcases hd2 with rfl | rfl
    · rw [e1, e3]
      exact ⟨hdiag _ _ rfl (by ring), hsingleF _ rfl, hsingleR _ (abs_neg _), hlt⟩
    · rw [e1, e4]
      exact ⟨hdiag _ _ rfl rfl, hsingleF _ rfl, hsingleR _ rfl, hlt⟩
    · rw [e2, e3]
      exact ⟨hdiag _ _ (by ring) (by ring), hsingleF _ (abs_neg _), hsingleR _ (abs_neg _), hlt⟩
    · rw [e2, e4]
      exact ⟨hdiag _ _ (by ring) rfl, hsingleF _ (abs_neg _), hsingleR _ rfl, hlt⟩

/-- C12 at a concrete state: `Front = (0,0,-1)`, `Right = (1,0,0)`, speed 5/2, one second
forward then right moves the camera by `sqrt(2) * 5/2`. -/
theorem C12_diagonal_movement_witness :
    length ((((sampleCamera : Camera ℝ).processKeyboard Camera_Movement.FORWARD 1).processKeyboard
      Camera_Movement.RIGHT 1).Position.sub (sampleCamera : Camera ℝ).Position) =
      Real.sqrt 2 * |(sampleCamera : Camera ℝ).movementSpeed * 1| :=
  (C12_diagonal_movement.2.2 sampleCamera Camera_Movement.FORWARD Camera_Movement.RIGHT 1
    (by simp [length, dot, sampleCamera]) (by simp [length, dot, sampleCamera])
    (by simp [dot, sampleCamera]) (Or.inl rfl) (Or.inr rfl)).1

/-- C13: yaw periodicity. For every state (any yaw, pitch, `WorldUp`) and every whole number
`n` of turns, `updateCameraVectors` computes the same `Front`, `Right`, `Up` for yaw
`+ 360·n` degrees as for yaw, and the view matrices agree (exact real arithmetic). -/
theorem C13_yaw_periodicity (c : Camera ℝ) (n : ℤ) :
    ({ c with Yaw := c.Yaw + 360 }).updateCameraVectors.Front = c.updateCameraVectors.Front ∧
    ({ c with Yaw := c.Yaw + 360 }).updateCameraVectors.Right = c.updateCameraVectors.Right ∧
    ({ c with Yaw := c.Yaw + 360 }).updateCameraVectors.Up = c.updateCameraVectors.Up ∧
    ({ c with Yaw := c.Yaw + 360 * n }).updateCameraVectors.Front =
      c.updateCameraVectors.Front ∧
    ({ c with Yaw := c.Yaw + 360 * n }).updateCameraVectors.Right =
      c.updateCameraVectors.Right ∧
    ({ c with Yaw := c.Yaw + 360 * n }).updateCameraVectors.Up = c.updateCameraVectors.Up ∧
    ({ c with Yaw := c.Yaw + 360 * n }).updateCameraVectors.getViewMatrix =
      c.updateCameraVectors.getViewMatrix := by
  have h1 : eulerDirection (c.Yaw + 360) c.Pitch = eulerDirection c.Yaw c.Pitch := by
    have h := eulerDirection_add_turns c.Yaw c.Pitch 1
    simpa using h
  have hn := eulerDirection_add_turns c.Yaw c.Pitch n
  rw [updateCameraVectors_eq, updateCameraVectors_eq, updateCameraVectors_eq]
  simp only [h1, hn, Camera.getViewMatrix]
  exact ⟨trivial, trivial, trivial, trivial, trivial, trivial, trivial⟩

/-- C14: frame conditions. `processMouseScroll` changes no field other than `Zoom`;
`processKeyboard` changes no field other than `Position`; the call `getViewMatrix()` changes
no field; `processMouseMovement` leaves `Position`, `Zoom`, `WorldUp`, `movementSpeed` and
`mouseSensitivity` unchanged. -/
theorem C14_frame_conditions :
    (∀ (c : Camera ℝ) (yOffset : ℝ),
      c.processMouseScroll yOffset = { c with Zoom := (c.processMouseScroll yOffset).Zoom }) ∧
    (∀ (c : Camera ℝ) (direction : Camera_Movement) (deltaTime : ℝ),
      c.processKeyboard direction deltaTime =
        { c with Position := (c.processKeyboard direction deltaTime).Position }) ∧
    (∀ c : Camera ℝ, c.getViewMatrixCall.2 = c ∧ c.getViewMatrixCall.1 = c.getViewMatrix) ∧
    (∀ (c : Camera ℝ) (xOffset yOffset : ℝ) (constrainPitch : Nat),
      (c.processMouseMovement xOffset yOffset constrainPitch).Position = c.Position ∧
      (c.processMouseMovement xOffset yOffset constrainPitch).Zoom = c.Zoom ∧
      (c.processMouseMovement xOffset yOffset constrainPitch).WorldUp = c.WorldUp ∧
      (c.processMouseMovement xOffset yOffset constrainPitch).movementSpeed =
        c.movementSpeed ∧
      (c.processMouseMovement xOffset yOffset constrainPitch).mouseSensitivity =
        c.mouseSensitivity) := by
  refine ⟨processMouseScroll_eq, processKeyboard_eq, fun c => ⟨rfl, rfl⟩,
    fun c xOffset yOffset constrainPitch => ?_⟩
  rw [processMouseMovement_eq]
  exact ⟨rfl, rfl, rfl, rfl, rfl⟩

/-- C15: no orientation drift. In every state reached from either constructor by any sequence
of operations the cached `Front` is the direction of the current `Yaw` and `Pitch`,
`Right = normalize(Front × WorldUp)` and `Up = normalize(Right × Front)`; a look update
re-derives the basis from any state, and keyboard and scroll updates change neither the angles
nor the basis nor `WorldUp`. -/
theorem C15_no_orientation_drift :
    (∀ (mem : Camera ℝ) (position up : Vec3 ℝ) (yaw pitch : ℝ) (ops : List (Op ℝ)),
      BasisDerived ((Camera.CameraVec mem position up yaw pitch).run ops)) ∧
    (∀ (mem : Camera ℝ) (posX posY posZ upX upY upZ yaw pitch : ℝ) (ops : List (Op ℝ)),
      BasisDerived
        ((Camera.CameraScalars mem posX posY posZ upX upY upZ yaw pitch).run ops)) ∧
    (∀ (c : Camera ℝ) (xOffset yOffset : ℝ) (constrainPitch : Nat),
      BasisDerived (c.processMouseMovement xOffset yOffset constrainPitch)) ∧
    (∀ (c : Camera ℝ) (direction : Camera_Movement) (deltaTime : ℝ),
      (c.processKeyboard direction deltaTime).Yaw = c.Yaw ∧
      (c.processKeyboard direction deltaTime).Pitch = c.Pitch ∧
      (c.processKeyboard direction deltaTime).WorldUp = c.WorldUp ∧
      (c.processKeyboard direction deltaTime).Front = c.Front ∧
      (c.processKeyboard direction deltaTime).Right = c.Right ∧
      (c.processKeyboard direction deltaTime).Up = c.Up) ∧
    (∀ (c : Camera ℝ) (yOffset : ℝ),
      (c.processMouseScroll yOffset).Yaw = c.Yaw ∧
      (c.processMouseScroll yOffset).Pitch = c.Pitch ∧
      (c.processMouseScroll yOffset).WorldUp = c.WorldUp ∧
      (c.processMouseScroll yOffset).Front = c.Front ∧
      (c.processMouseScroll yOffset).Right = c.Right ∧
      (c.processMouseScroll yOffset).Up = c.Up) := by
  refine ⟨?_, ?_, ?_, ?_, ?_⟩
  · intro mem position up yaw pitch ops
    exact run_BasisDerived ops _ (updateCameraVectors_BasisDerived _)
  · intro mem posX posY posZ upX upY upZ yaw pitch ops
    exact run_BasisDerived ops _ (updateCameraVectors_BasisDerived _)
  · intro c xOffset yOffset constrainPitch
    exact updateCameraVectors_BasisDerived _
  · intro c direction deltaTime
    rw [processKeyboard_eq]
    exact ⟨rfl, rfl, rfl, rfl, rfl, rfl⟩
  · intro c yOffset
    rw [processMouseScroll_eq]
    exact ⟨rfl, rfl, rfl, rfl, rfl, rfl⟩

/-! ### The camera with GLM's conversion constant -/

/-- With `glmMath`, `radians` multiplies by GLM's factor. -/
theorem radians_glm (d : ℝ) : @radians ℝ _ glmMath d = d * glmRadiansFactor := by
  simp only [radians, glmMath]
  ring

/-- A direction given by angles in radians has squared length one. -/
theorem dot_direction (a b : ℝ) : dot (direction a b) (direction a b) = 1 := by
  have h1 := Real.cos_sq_add_sin_sq a
  have h2 := Real.cos_sq_add_sin_sq b
  simp only [dot, direction]
  linear_combination (Real.cos b) ^ 2 * h1 + h2

/-- With the reference vector `(0,1,0)`, the cross product of a direction and the reference
vanishes exactly when the cosine of the pitch does. -/
theorem cross_direction_up_eq_zero_iff (a b : ℝ) :
    cross (direction a b) ⟨0, 1, 0⟩ = ⟨0, 0, 0⟩ ↔ Real.cos b = 0 := by
  have h1 := Real.cos_sq_add_sin_sq a
  constructor
  · intro h
    have hx := congrArg Vec3.x h
    have hz := congrArg Vec3.z h
    simp only [cross, direction] at hx hz
    have hsq : Real.cos b ^ 2 = 0 := by
      linear_combination -(Real.cos b) ^ 2 * h1 - (Real.sin a * Real.cos b) * hx
        + (Real.cos a * Real.cos b) * hz
    exact pow_eq_zero_iff (two_ne_zero) |>.mp hsq
  · intro h
    simp [cross, direction, h]

/-- The state after `updateCameraVectors` with `glmMath`, field by field. -/
theorem updateCameraVectorsGlm_eq (c : Camera ℝ) :
    c.updateCameraVectorsGlm =
      { c with
        Front := direction (c.Yaw * glmRadiansFactor) (c.Pitch * glmRadiansFactor)
        Right := normalize (cross
          (direction (c.Yaw * glmRadiansFactor) (c.Pitch * glmRadiansFactor)) c.WorldUp)
        Up := normalize (cross
          (normalize (cross
            (direction (c.Yaw * glmRadiansFactor) (c.Pitch * glmRadiansFactor)) c.WorldUp))
          (direction (c.Yaw * glmRadiansFactor) (c.Pitch * glmRadiansFactor))) } := by
  have hn : ∀ v : Vec3 ℝ, @normalize ℝ _ glmMath v = normalize v := fun _ => rfl
  have hc : ∀ x : ℝ, @FloatMath.cos ℝ glmMath x = Real.cos x := fun _ => rfl
  have hs : ∀ x : ℝ, @FloatMath.sin ℝ glmMath x = Real.sin x := fun _ => rfl
  have h := normalize_of_dot_eq_one _
    (dot_direction (c.Yaw * glmRadiansFactor) (c.Pitch * glmRadiansFactor))
  simp only [direction] at h
  simp only [Camera.updateCameraVectorsGlm, Camera.updateCameraVectors, radians_glm, hn, hc, hs,
    direction, h]

/-- The cosine of a rational number is not zero: its zeros are the odd multiples of `π / 2`,
which are irrational. -/
theorem cos_rat_ne_zero (q : ℚ) : Real.cos (q : ℝ) ≠ 0 := by
  intro h
  obtain ⟨n, hn⟩ := Real.cos_eq_zero_iff.mp h
  have hodd : (2 * (n : ℝ) + 1) ≠ 0 := by
    have : (2 * n + 1 : ℤ) ≠ 0 := by omega
    exact_mod_cast this
  apply irrational_pi
  refine ⟨2 * q / (2 * n + 1), ?_⟩
  push_cast
  rw [hn]
  field_simp

/-- At a pitch of exactly 90 or -90 degrees the cosine GLM's conversion leads to is not
zero. -/
theorem cos_glm_ninety_ne_zero (pitch : ℝ) (h : pitch = 90 ∨ pitch = -90) :
    Real.cos (pitch * glmRadiansFactor) ≠ 0 := by
  rcases h with h | h
  · have e : pitch * glmRadiansFactor =
        ((90 * (5030569068109113 / 288230376151711744) : ℚ) : ℝ) := by
      rw [h]; simp only [glmRadiansFactor]; push_cast; ring
    rw [e]; exact cos_rat_ne_zero _
  · have e : pitch * glmRadiansFactor =
        ((-90 * (5030569068109113 / 288230376151711744) : ℚ) : ℝ) := by
      rw [h]; simp only [glmRadiansFactor]; push_cast; ring
    rw [e]; exact cos_rat_ne_zero _

/-- With GLM's conversion too, a pitch between -89 and 89 degrees has a positive cosine. -/
theorem cos_glm_pitch_pos (pitch : ℝ) (hlo : -89 ≤ pitch) (hhi : pitch ≤ 89) :
    0 < Real.cos (pitch * glmRadiansFactor) := by
  have hpi := Real.pi_gt_d2
  have hk : (glmRadiansFactor : ℝ) = 5030569068109113 / 288230376151711744 := rfl
  have hk0 : (0 : ℝ) < glmRadiansFactor := by rw [hk]; norm_num
  have hk1 : (89 : ℝ) * glmRadiansFactor < 1.57 := by rw [hk]; norm_num
  apply Real.cos_pos_of_mem_Ioo
  constructor
  · nlinarith
  · nlinarith

/-- With `glmMath`, a non-zero cosine of the pitch gives a non-zero `Front × WorldUp` and a
`Right` of length one, for `WorldUp = (0,1,0)`. -/
theorem glm_nondegenerate (c : Camera ℝ) (hup : c.WorldUp = ⟨0, 1, 0⟩)
    (hcos : Real.cos (c.Pitch * glmRadiansFactor) ≠ 0) :
    cross c.updateCameraVectorsGlm.Front c.updateCameraVectorsGlm.WorldUp ≠ ⟨0, 0, 0⟩ ∧
    length c.updateCameraVectorsGlm.Right = 1 := by
  rw [updateCameraVectorsGlm_eq, hup]
  have hne : cross (direction (c.Yaw * glmRadiansFactor) (c.Pitch * glmRadiansFactor))
      ⟨0, 1, 0⟩ ≠ ⟨0, 0, 0⟩ := fun h => hcos ((cross_direction_up_eq_zero_iff _ _).mp h)
  refine ⟨hne, length_of_dot_eq_one _ (dot_normalize _ ?_)⟩
  exact fun h => hne ((dot_self_eq_zero_iff _).mp h)

/-- Whatever the scalar library computes, a zero `Front × WorldUp` gives a `Right` that is not
of unit length. -/
theorem glm_degenerate (c : Camera ℝ)
    (h : cross c.updateCameraVectorsGlm.Front c.updateCameraVectorsGlm.WorldUp = ⟨0, 0, 0⟩) :
    length c.updateCameraVectorsGlm.Right ≠ 1 := by
  rw [updateCameraVectorsGlm_eq] at h ⊢
  exact length_normalize_zero_ne_one _ h

/-- A look update with `glmMath` writes `Yaw`, `Pitch` and then the basis. -/
theorem processMouseMovementGlm_eq (c : Camera ℝ) (x y : ℝ) (k : Nat) :
    c.processMouseMovementGlm x y k =
      Camera.updateCameraVectorsGlm
        { c with
          Yaw := c.Yaw + x * c.mouseSensitivity
          Pitch := (c.processMouseMovementGlm x y k).Pitch } := by
  simp only [Camera.processMouseMovementGlm, Camera.updateCameraVectorsGlm,
    Camera.processMouseMovement]
  split_ifs <;> rfl

/-- Counterexample to C16 as stated: the eight-scalar constructor with `worldUp = (0,1,0)`,
yaw 0, pitch 90, followed by a look update with zero offsets and `constrainPitch` disabled.
The pitch is exactly 90, and with the conversion constant GLM uses `Front × WorldUp` is not
the zero vector and the computed `Right` has length one. -/
theorem C16_counterexample :
    ((Camera.CameraScalarsGlm zeroMem 0 0 0 0 1 0 0 90).processMouseMovementGlm 0 0 0).Pitch =
      90 ∧
    ((Camera.CameraScalarsGlm zeroMem 0 0 0 0 1 0 0 90).processMouseMovementGlm 0 0 0).WorldUp =
      ⟨0, 1, 0⟩ ∧
    cross ((Camera.CameraScalarsGlm zeroMem 0 0 0 0 1 0 0 90).processMouseMovementGlm 0 0 0).Front
      ((Camera.CameraScalarsGlm zeroMem 0 0 0 0 1 0 0 90).processMouseMovementGlm 0 0 0).WorldUp ≠
        ⟨0, 0, 0⟩ ∧
    length ((Camera.CameraScalarsGlm zeroMem 0 0 0 0 1 0 0 90).processMouseMovementGlm
      0 0 0).Right = 1 := by
  have hP : ((Camera.CameraScalarsGlm zeroMem 0 0 0 0 1 0 0 90).processMouseMovementGlm
      0 0 0).Pitch = 90 := by
    simp [Camera.processMouseMovementGlm, Camera.processMouseMovement,
      Camera.CameraScalarsGlm, Camera.CameraScalars]
  refine ⟨hP, rfl, ?_⟩
  rw [processMouseMovementGlm_eq, hP]
  exact glm_nondegenerate _ rfl (cos_glm_ninety_ne_zero _ (Or.inl rfl))

/-- C16 (amended): degenerate basis. With `WorldUp = (0,1,0)` and the degrees-to-radians
conversion GLM performs, after `updateCameraVectors` the cross product `Front × WorldUp` is
the zero vector exactly when the computed `cos(radians(pitch))` is zero, and a zero cross
product gives a `Right` that is not a unit vector; for a pitch in [-89, 89] the cross product
is non-zero and `Right` has length one; at a pitch of exactly 90 or -90 degrees, reached with
`constrainPitch` disabled, the computed cosine is not zero, the cross product is non-zero and
`Right` has length one.  (With the exact factor `π / 180` the cosine would vanish exactly at
the pitches `90 + 180·n`.) -/
theorem C16_degenerate_basis_glm :
    (∀ c : Camera ℝ, c.WorldUp = ⟨0, 1, 0⟩ →
      (cross c.updateCameraVectorsGlm.Front c.updateCameraVectorsGlm.WorldUp = ⟨0, 0, 0⟩ ↔
        Real.cos (c.Pitch * glmRadiansFactor) = 0)) ∧
    (∀ c : Camera ℝ,
      cross c.updateCameraVectorsGlm.Front c.updateCameraVectorsGlm.WorldUp = ⟨0, 0, 0⟩ →
      length c.updateCameraVectorsGlm.Right ≠ 1) ∧
    (∀ c : Camera ℝ, c.WorldUp = ⟨0, 1, 0⟩ → -89 ≤ c.Pitch → c.Pitch ≤ 89 →
      cross c.updateCameraVectorsGlm.Front c.updateCameraVectorsGlm.WorldUp ≠ ⟨0, 0, 0⟩ ∧
      length c.updateCameraVectorsGlm.Right = 1) ∧
    (∀ c : Camera ℝ, c.WorldUp = ⟨0, 1, 0⟩ → (c.Pitch = 90 ∨ c.Pitch = -90) →
      cross c.updateCameraVectorsGlm.Front c.updateCameraVectorsGlm.WorldUp ≠ ⟨0, 0, 0⟩ ∧
      length c.updateCameraVectorsGlm.Right = 1) ∧
    (∀ (c : Camera ℝ) (xOffset yOffset : ℝ), c.WorldUp = ⟨0, 1, 0⟩ →
      ((c.processMouseMovementGlm xOffset yOffset 0).Pitch = 90 ∨
        (c.processMouseMovementGlm xOffset yOffset 0).Pitch = -90) →
      cross (c.processMouseMovementGlm xOffset yOffset 0).Front
        (c.processMouseMovementGlm xOffset yOffset 0).WorldUp ≠ ⟨0, 0, 0⟩ ∧
      length (c.processMouseMovementGlm xOffset yOffset 0).Right = 1) ∧
    (∀ pitch : ℝ,
      Real.cos (pitch * (Real.pi / 180)) = 0 ↔ ∃ n : ℤ, pitch = 90 + 180 * n) := by
  refine ⟨?_, glm_degenerate, ?_, ?_, ?_, cos_degrees_eq_zero_iff⟩
  · intro c hup
    rw [updateCameraVectorsGlm_eq, hup]
    exact cross_direction_up_eq_zero_iff _ _
  · intro c hup hlo hhi
    exact glm_nondegenerate c hup (cos_glm_pitch_pos c.Pitch hlo hhi).ne'
  · intro c hup hp
    exact glm_nondegenerate c hup (cos_glm_ninety_ne_zero c.Pitch hp)
  · intro c xOffset yOffset hup hp
    rw [processMouseMovementGlm_eq]
    exact glm_nondegenerate _ hup (cos_glm_ninety_ne_zero _ hp)

/-- C16 (amended) at a concrete input: constructed with `worldUp = (0,1,0)`, yaw -90,
pitch -90, then a look update with zero offsets and `constrainPitch` disabled; the pitch is
exactly -90 and `Right` has length one. -/
theorem C16_degenerate_basis_glm_witness :
    ((Camera.CameraScalarsGlm zeroMem 0 0 3 0 1 0 (-90) (-90)).processMouseMovementGlm
      0 0 0).Pitch = -90 ∧
    cross ((Camera.CameraScalarsGlm zeroMem 0 0 3 0 1 0 (-90) (-90)).processMouseMovementGlm
        0 0 0).Front
      ((Camera.CameraScalarsGlm zeroMem 0 0 3 0 1 0 (-90) (-90)).processMouseMovementGlm
        0 0 0).WorldUp ≠ ⟨0, 0, 0⟩ ∧
    length ((Camera.CameraScalarsGlm zeroMem 0 0 3 0 1 0 (-90) (-90)).processMouseMovementGlm
      0 0 0).Right = 1 := by
  have hP : ((Camera.CameraScalarsGlm zeroMem 0 0 3 0 1 0 (-90) (-90)).processMouseMovementGlm
      0 0 0).Pitch = -90 := by
    simp [Camera.processMouseMovementGlm, Camera.processMouseMovement,
      Camera.CameraScalarsGlm, Camera.CameraScalars]
  exact ⟨hP, C16_degenerate_basis_glm.2.2.2.2.1
    (Camera.CameraScalarsGlm zeroMem 0 0 3 0 1 0 (-90) (-90)) 0 0 rfl (Or.inr hP)⟩

/-- C17: constant movement speed at any look angle. With `WorldUp = (0,1,0)` and the pitch
in [-89, 89], after `updateCameraVectors` a single `processKeyboard` call in any direction
moves `Position` by a distance of exactly `|movementSpeed*deltaTime|`, whatever the pitch. -/
theorem C17_constant_speed (c : Camera ℝ) (hup : c.WorldUp = ⟨0, 1, 0⟩)
    (hlo : -89 ≤ c.Pitch) (hhi : c.Pitch ≤ 89) (direction : Camera_Movement)
    (deltaTime : ℝ) :
    length ((c.updateCameraVectors.processKeyboard direction deltaTime).Position.sub
      c.updateCameraVectors.Position) = |c.movementSpeed * deltaTime| := by
  have hne : cross c.updateCameraVectors.Front c.updateCameraVectors.WorldUp ≠ ⟨0, 0, 0⟩ := by
    rw [updateCameraVectors_eq, hup]
    intro h
    exact (cos_pitch_pos c.Pitch hlo hhi).ne' ((cross_eulerDirection_up_eq_zero_iff _ _).mp h)
  obtain ⟨hF, hR, -, -, -, -⟩ :=
    Orthonormal_of_BasisDerived _ (updateCameraVectors_BasisDerived c) hne
  have hFF := dot_of_length_eq_one _ hF
  have hRR := dot_of_length_eq_one _ hR
  obtain ⟨e1, e2, e3, e4⟩ := displacement_eq c.updateCameraVectors deltaTime
  have hs : c.updateCameraVectors.movementSpeed = c.movementSpeed := rfl
  rw [hs] at e1 e2 e3 e4
  show length (c.updateCameraVectors.displacement direction deltaTime) = _
  cases direction
  · rw [e1, length_scale, hFF, Real.sqrt_one, one_mul]
  · rw [e2, length_scale, hFF, Real.sqrt_one, one_mul, abs_neg]
  · rw [e3, length_scale, hRR, Real.sqrt_one, one_mul, abs_neg]
  · rw [e4, length_scale, hRR, Real.sqrt_one, one_mul]

/-- C17 at a concrete input: yaw -90, pitch 0, speed 5/2; a LEFT call of two seconds moves
the camera by 5. -/
theorem C17_constant_speed_witness :
    length (((sampleCamera : Camera ℝ).updateCameraVectors.processKeyboard
      Camera_Movement.LEFT 2).Position.sub
      (sampleCamera : Camera ℝ).updateCameraVectors.Position) = 5 := by
  have h := C17_constant_speed (sampleCamera : Camera ℝ) rfl (by norm_num [sampleCamera])
    (by norm_num [sampleCamera]) Camera_Movement.LEFT 2
  rw [h]
  norm_num [sampleCamera]

/-- C18: the view transform places the camera at the eye-space origin looking down `-Z`. For
every state whose `Front` and `Up` are of unit length and orthogonal, `getViewMatrix` maps
the point `(Position, 1)` to `(0,0,0,1)`, `(Position + Front, 1)` to `(0,0,-1,1)` and
`(Position + Up, 1)` to `(0,1,0,1)`. -/
theorem C18_view_origin (c : Camera ℝ) (hF : length c.Front = 1) (hU : length c.Up = 1)
    (hFU : dot c.Front c.Up = 0) :
    c.getViewMatrix.mulVec c.Position.toPoint = ⟨0, 0, 0, 1⟩ ∧
    c.getViewMatrix.mulVec (c.Position.add c.Front).toPoint = ⟨0, 0, -1, 1⟩ ∧
    c.getViewMatrix.mulVec (c.Position.add c.Up).toPoint = ⟨0, 1, 0, 1⟩ := by
  have hFF := dot_of_length_eq_one _ hF
  have hUU := dot_of_length_eq_one _ hU
  rw [getViewMatrix_of_front_up c hFF hUU hFU]
  simp only [dot] at hFF hUU hFU
  refine ⟨?_, ?_, ?_⟩
  · apply Vec4.ext <;>
      simp only [Mat4.mulVec, Vec4.add, Vec4.scale, Vec3.toPoint, Vec3.add, dot, cross] <;>
      ring
  · apply Vec4.ext <;>
      simp only [Mat4.mulVec, Vec4.add, Vec4.scale, Vec3.toPoint, Vec3.add, dot, cross]
    · ring
    · linear_combination hFU
    · linear_combination -hFF
    · ring
  · apply Vec4.ext <;>
      simp only [Mat4.mulVec, Vec4.add, Vec4.scale, Vec3.toPoint, Vec3.add, dot, cross]
    · ring
    · linear_combination hUU
    · linear_combination -hFU
    · ring

/-- C18 at a concrete state: position `(0,0,3)`, front `(0,0,-1)`, up `(0,1,0)`. -/
theorem C18_view_origin_witness :
    (sampleCamera : Camera ℝ).getViewMatrix.mulVec ⟨0, 0, 3, 1⟩ = ⟨0, 0, 0, 1⟩ ∧
    (sampleCamera : Camera ℝ).getViewMatrix.mulVec ⟨0, 0, 2, 1⟩ = ⟨0, 0, -1, 1⟩ ∧
    (sampleCamera : Camera ℝ).getViewMatrix.mulVec ⟨0, 1, 3, 1⟩ = ⟨0, 1, 0, 1⟩ := by
  have h := C18_view_origin (sampleCamera : Camera ℝ) (by simp [length, dot, sampleCamera])
    (by simp [length, dot, sampleCamera]) (by simp [dot, sampleCamera])
  have e1 : (sampleCamera : Camera ℝ).Position.toPoint = ⟨0, 0, 3, 1⟩ := rfl
  have e2 : ((sampleCamera : Camera ℝ).Position.add (sampleCamera : Camera ℝ).Front).toPoint =
      ⟨0, 0, 2, 1⟩ := by
    simp [sampleCamera, Vec3.add, Vec3.toPoint]; norm_num
  have e3 : ((sampleCamera : Camera ℝ).Position.add (sampleCamera : Camera ℝ).Up).toPoint =
      ⟨0, 1, 3, 1⟩ := by
    simp [sampleCamera, Vec3.add, Vec3.toPoint]
  rw [e1, e2, e3] at h
  exact h

/-- C19: the camera never flips upside-down under the pitch constraint. With
`WorldUp = (0,1,0)` and the pitch in [-89, 89], the basis written by `updateCameraVectors`
has `Right.y = 0` and `Up.y = cos(pitch) > 0`, so `Up · WorldUp > 0`; and this holds in every
state reached by a look update with `constrainPitch` enabled followed by any calls whose look
updates are all constrained. -/
theorem C19_never_upside_down :
    (∀ c : Camera ℝ, c.WorldUp = ⟨0, 1, 0⟩ → -89 ≤ c.Pitch → c.Pitch ≤ 89 →
      c.updateCameraVectors.Right.y = 0 ∧
      c.updateCameraVectors.Up.y = FloatMath.cos (radians c.Pitch) ∧
      0 < c.updateCameraVectors.Up.y ∧
      0 < dot c.updateCameraVectors.Up c.updateCameraVectors.WorldUp) ∧
    (∀ (c : Camera ℝ) (xOffset yOffset : ℝ) (constrainPitch : Nat) (ops : List (Op ℝ)),
      c.WorldUp = ⟨0, 1, 0⟩ → constrainPitch ≠ 0 → (∀ op ∈ ops, op.constrained = true) →
      ((c.processMouseMovement xOffset yOffset constrainPitch).run ops).Right.y = 0 ∧
      0 < ((c.processMouseMovement xOffset yOffset constrainPitch).run ops).Up.y ∧
      0 < dot ((c.processMouseMovement xOffset yOffset constrainPitch).run ops).Up
            ((c.processMouseMovement xOffset yOffset constrainPitch).run ops).WorldUp) := by
  refine ⟨?_, ?_⟩
  · intro c hup hlo hhi
    exact upright_of_BasisDerived c.updateCameraVectors (updateCameraVectors_BasisDerived c)
      hup ⟨hlo, hhi⟩
  · intro c xOffset yOffset constrainPitch ops hup hk hall
    have hB0 : BasisDerived (c.processMouseMovement xOffset yOffset constrainPitch) :=
      updateCameraVectors_BasisDerived _
    have hB := run_BasisDerived ops _ hB0
    have hP := run_PitchInRange ops _ hall
      (processMouseMovement_PitchInRange c xOffset yOffset constrainPitch hk)
    have hW : ((c.processMouseMovement xOffset yOffset constrainPitch).run ops).WorldUp =
        ⟨0, 1, 0⟩ := by
      rw [run_WorldUp, processMouseMovement_eq]; exact hup
    obtain ⟨h1, -, h3, h4⟩ := upright_of_BasisDerived _ hB hW hP
    exact ⟨h1, h3, h4⟩

/-- C19 at a concrete state: yaw -90, pitch 0, `WorldUp = (0,1,0)`. -/
theorem C19_never_upside_down_witness :
    (sampleCamera : Camera ℝ).updateCameraVectors.Right.y = 0 ∧
    0 < (sampleCamera : Camera ℝ).updateCameraVectors.Up.y ∧
    0 < dot (sampleCamera : Camera ℝ).updateCameraVectors.Up
      (sampleCamera : Camera ℝ).updateCameraVectors.WorldUp :=
  ⟨(C19_never_upside_down.1 sampleCamera rfl (by norm_num [sampleCamera])
      (by norm_num [sampleCamera])).1,
   (C19_never_upside_down.1 sampleCamera rfl (by norm_num [sampleCamera])
      (by norm_num [sampleCamera])).2.2⟩

end Renderer
